import Mathlib

/-!
# Verification of `manage_step_seq.py`

A shallow embedding of the step/sequence registry tool `src/manage_step_seq.py`
in Lean 4, together with theorems settling the specification claims.

Strings are modelled as `List Char` (the Python code only manipulates text).
Python dictionaries (`db["map"]`, the reverse cache, lint's `seen`) are
modelled as insertion-ordered association lists with unique keys, which is
exactly the observable behaviour of a Python `dict`.  Each operation's
interactive prompts (`input`, `confirm`) are modelled by an explicit list of
pending input lines; an exhausted input list means the program would block
forever waiting for input (no further effect happens, in particular no save).
Every `op_*` function returns an explicit result value whose `saved` case
carries the document passed to `atomic_save`; all other cases perform no
write.
-/

deriving instance DecidableEq for Except

namespace StepSeq

/-- Strings, modelled as lists of characters. -/
abbrev Str := List Char

/-- ASCII whitespace, as recognised by Python's `str.split()` / `str.strip()`
and the `\s` regex class (restricted to ASCII, which is all the tool uses). -/
def isSpaceChar (c : Char) : Bool :=
  c = ' ' || c = '\t' || c = '\n' || c = '\r' || c = '\x0b' || c = '\x0c'

/-- Split a string at every character satisfying `p`, keeping empty chunks
(the behaviour of `re.split` on a single-character class). -/
def splitPred (p : Char → Bool) : Str → List Str
  | [] => [[]]
  | c :: cs =>
    if p c then [] :: splitPred p cs
    else
      match splitPred p cs with
      | [] => [[c]]
      | w :: ws => (c :: w) :: ws

/-- Python `raw.split()`: split on whitespace runs, discarding empty pieces. -/
def pyWords (l : Str) : List Str :=
  (splitPred isSpaceChar l).filter (fun w => w ≠ [])

/-- Join a list of strings with a single separator character
(`sep.join(parts)`). -/
def joinWith (sep : Char) : List Str → Str
  | [] => []
  | [w] => w
  | w :: ws => w ++ sep :: joinWith sep ws

/-- Python `s.strip()`: drop leading and trailing whitespace. -/
def pyStrip (l : Str) : Str :=
  ((l.dropWhile (fun c => isSpaceChar c)).reverse.dropWhile
    (fun c => isSpaceChar c)).reverse

/-- Python `s.upper()` (ASCII). -/
def pyUpper (l : Str) : Str := l.map Char.toUpper

/-- Python `s.lower()` (ASCII). -/
def pyLower (l : Str) : Str := l.map Char.toLower

/-- Lexicographic comparison of strings by character code, as used by Python's
`list.sort()` on strings. -/
def strLe : Str → Str → Bool
  | [], _ => true
  | _ :: _, [] => false
  | x :: xs, y :: ys =>
    if x < y then true
    else if y < x then false
    else strLe xs ys

/-- `lst.sort()` on a list of step names: stable sort by `strLe`.  For the
antisymmetric total order on strings every correct sort returns the same
list, so this agrees with Python's sort. -/
def sortSteps (l : List Str) : List Str :=
  l.insertionSort (fun a b => strLe a b = true)

/-- The distinguishable error values raised by the tool.  Each constructor
corresponds to one `raise ValueError(...)` message in the source. -/
inductive Err where
  /-- "Step name cannot be empty." -/
  | emptyStep : Err
  /-- "Use lowercase only and remove punctuation (letters/digits + single spaces)." -/
  | upperAndPunct : Err
  /-- "Use lowercase only (letters/digits + single spaces)." -/
  | upperOnly : Err
  /-- "Remove punctuation; allowed: letters/digits + single spaces." -/
  | punctOnly : Err
  /-- "Invalid step name; allowed: lowercase letters/digits with single spaces." -/
  | invalidFormat : Err
  /-- "Sequence cannot be empty." -/
  | emptySeq : Err
  /-- "Unknown tokens: ... Allowed: ..." (carrying the offending tokens). -/
  | unknownTokens (ts : List Str) : Err
  /-- "Inconsistent JSON: step s appears under k1 and k2." -/
  | inconsistent (s k1 k2 : Str) : Err
deriving DecidableEq

/-- A character allowed inside a step-name word: `[a-z0-9]`. -/
def isWordChar (c : Char) : Bool := c.isLower || c.isDigit

/-- Full match of the regex `^[a-z0-9]+(?: [a-z0-9]+)*$` (`_STEP_NAME_RE`):
the string splits at single spaces into one or more nonempty `[a-z0-9]` words.
Splitting at the space character makes the "nonempty word" condition also
reject leading, trailing and doubled spaces, exactly as the regex does. -/
def stepNameRe (s : Str) : Bool :=
  (splitPred (fun c => c = ' ') s).all
    (fun w => w ≠ [] && w.all isWordChar)

/-- `normalize_step_name(raw)`: collapse whitespace runs to single spaces and
trim (`" ".join(raw.strip().split())`), then validate against
`_STEP_NAME_RE`, classifying failures by inspecting the raw input exactly as
the source's "helpful hints" do. -/
def normalize_step_name (raw : Str) : Except Err Str :=
  let s := joinWith ' ' (pyWords raw)
  if s = [] then .error .emptyStep
  else if stepNameRe s then .ok s
  else
    let hasUpper := raw.any (fun c => c.isUpper)
    let hasForbidden :=
      raw.any (fun c => !(c.isLower || c.isDigit || isSpaceChar c))
    if hasUpper && hasForbidden then .error .upperAndPunct
    else if hasUpper then .error .upperOnly
    else if hasForbidden then .error .punctOnly
    else .error .invalidFormat

/-- A sequence-separator character: the regex class `[,\s]`. -/
def isSepChar (c : Char) : Bool := c = ',' || isSpaceChar c

/-- `ALLOWED_TOKENS` from the source (a nonempty set, so the allow-list
check in `canonicalize_sequence` is active). -/
def ALLOWED_TOKENS : List Str :=
  ["UP", "DOWN", "LEFT", "RIGHT", "ENTER", "OK", "ESC", "BACK", "TAB",
   "SPACE", "WAIT", "WAIT1", "WAIT2", "WAIT3", "WAIT5", "WAIT10"].map
    String.toList

/-- The token list extracted from a raw sequence string:
`[t.strip().upper() for t in re.split(r"[,\s]+", seq_str) if t.strip()]`.
Pieces produced by splitting at every separator character contain no
whitespace, so `t.strip()` is the identity and its truthiness test is just
nonemptiness; splitting at each single separator instead of at runs produces
the same nonempty pieces, the runs merely contributing discarded empties. -/
def seqTokens (raw : Str) : List Str :=
  ((splitPred isSepChar raw).filter (fun t => t ≠ [])).map pyUpper

/-- `canonicalize_sequence(seq_str)`: split into tokens, reject an empty
token list, reject tokens outside `ALLOWED_TOKENS`, join with commas. -/
def canonicalize_sequence (raw : Str) : Except Err Str :=
  let tokens := seqTokens raw
  if tokens = [] then .error .emptySeq
  else
    let unknown := tokens.filter (fun t => t ∉ ALLOWED_TOKENS)
    if unknown ≠ [] then .error (.unknownTokens unknown)
    else .ok (joinWith ',' tokens)

/-- `confirm(prompt)` with `default_no = True` (as at both call sites),
applied to one line of input:
empty answer means the default "no", otherwise accept `y`/`yes`. -/
def confirmAns (raw : Str) : Bool :=
  let a := pyLower (pyStrip raw)
  if a = [] then false else a = ['y'] || a = ['y', 'e', 's']

/-! ## Association lists (Python `dict` with string keys) -/

/-- `m.get(k)` / `m[k]` on an insertion-ordered dictionary. -/
def alookup {β : Type} : List (Str × β) → Str → Option β
  | [], _ => none
  | (k', v) :: rest, k => if k' = k then some v else alookup rest k

/-- `m[k] = v`: update the entry in place if the key is present, otherwise
append a new entry at the end (Python `dict` assignment; also the net effect
of `m.setdefault(k, []).append(...)`). -/
def setKey {β : Type} : List (Str × β) → Str → β → List (Str × β)
  | [], k, v => [(k, v)]
  | (k', v') :: rest, k, v =>
    if k' = k then (k, v) :: rest else (k', v') :: setKey rest k v

/-- `del m[k]`: drop the (first, and with unique keys the only) entry. -/
def delKey {β : Type} : List (Str × β) → Str → List (Str × β)
  | [], _ => []
  | (k', v') :: rest, k =>
    if k' = k then rest else (k', v') :: delKey rest k

/-! ## The registry document and the reverse index -/

/-- The persisted document: `{"version": ..., "map": {...}}`, with the map
as an insertion-ordered dictionary from sequence key to step-name list. -/
structure Doc where
  version : Nat
  map : List (Str × List Str)
deriving DecidableEq

/-- A Python `dict` cannot hold the same key twice; every document loaded
from JSON or built by the tool satisfies this. -/
def KeysNodup (db : Doc) : Prop := (db.map.map Prod.fst).Nodup

instance (db : Doc) : Decidable (KeysNodup db) := by
  unfold KeysNodup; infer_instance

/-- The uniqueness invariant: no step name appears under two different
sequence keys of the document. -/
def UniqueOwners (db : Doc) : Prop :=
  ∀ k1 l1 k2 l2 s, (k1, l1) ∈ db.map → (k2, l2) ∈ db.map →
    s ∈ l1 → s ∈ l2 → k1 = k2

/-- Executable form of `UniqueOwners`. -/
def uniqueOwnersB (db : Doc) : Bool :=
  db.map.all fun p1 => db.map.all fun p2 =>
    p1.1 = p2.1 || p1.2.all (fun s => s ∉ p2.2)

theorem uniqueOwners_iff (db : Doc) : UniqueOwners db ↔ uniqueOwnersB db = true := by
  unfold UniqueOwners uniqueOwnersB
  simp only [List.all_eq_true, Bool.or_eq_true, decide_eq_true_eq]
  constructor
  · intro h p1 h1 p2 h2
    by_cases hk : p1.1 = p2.1
    · exact Or.inl hk
    · exact Or.inr fun s hs hs2 => hk (h p1.1 p1.2 p2.1 p2.2 s h1 h2 hs hs2)
  · intro h k1 l1 k2 l2 s h1 h2 hs1 hs2
    rcases h (k1, l1) h1 (k2, l2) h2 with hk | hall
    · exact hk
    · exact absurd hs2 (hall s hs1)

instance (db : Doc) : Decidable (UniqueOwners db) :=
  decidable_of_iff _ (uniqueOwners_iff db).symm

/-- One assignment `rev[s] = seq` of `build_reverse_cache`, guarded by the
consistency check `if s in rev and rev[s] != seq: raise`.  When the step is
already present the stored value equals `seq`, so the assignment changes
nothing and the map is returned unchanged. -/
def revInsert (rev : List (Str × Str)) (s seq : Str) :
    Except Err (List (Str × Str)) :=
  match alookup rev s with
  | some k => if k ≠ seq then .error (.inconsistent s k seq) else .ok rev
  | none => .ok (rev ++ [(s, seq)])

/-- The inner loop of `build_reverse_cache`: fold one sequence's step list
into the reverse cache. -/
def revAddList (seq : Str) : List Str → List (Str × Str) →
    Except Err (List (Str × Str))
  | [], rev => .ok rev
  | s :: ss, rev =>
    match revInsert rev s seq with
    | .error e => .error e
    | .ok rev' => revAddList seq ss rev'

/-- The outer loop of `build_reverse_cache` over `db["map"].items()`. -/
def revBuildAux : List (Str × List Str) → List (Str × Str) →
    Except Err (List (Str × Str))
  | [], rev => .ok rev
  | (seq, steps) :: rest, rev =>
    match revAddList seq steps rev with
    | .error e => .error e
    | .ok rev' => revBuildAux rest rev'

/-- `build_reverse_cache(db)`: the ephemeral step → sequence index, failing
with the "Inconsistent JSON" error when a step is found under two different
sequence keys. -/
def build_reverse_cache (db : Doc) : Except Err (List (Str × Str)) :=
  revBuildAux db.map []

/-! ## Interactive prompts

Pending interactive input is a list of raw lines; a prompt loop that runs
out of lines is blocked forever, modelled by `none`. -/

/-- `prompt_valid_step_name` / `prompt_step`: read lines (each stripped by
the prompt before validation) until one normalizes, returning the canonical
name and the unconsumed input. -/
def promptStep : List Str → Option (Str × List Str)
  | [] => none
  | r :: rs =>
    match normalize_step_name (pyStrip r) with
    | .ok n => some (n, rs)
    | .error _ => promptStep rs

/-- `prompt_sequence`: read lines until one canonicalizes. -/
def promptSeq : List Str → Option (Str × List Str)
  | [] => none
  | r :: rs =>
    match canonicalize_sequence (pyStrip r) with
    | .ok k => some (k, rs)
    | .error _ => promptSeq rs

/-- The conflict loop of `op_add`: keep prompting for a valid step name
until one is not already in the reverse cache. -/
def promptFresh (rev : List (Str × Str)) : List Str → Option (Str × List Str)
  | [] => none
  | r :: rs =>
    match normalize_step_name (pyStrip r) with
    | .error _ => promptFresh rev rs
    | .ok n =>
      if (alookup rev n).isSome then promptFresh rev rs
      else some (n, rs)

/-- Resolving an optional positional step argument, as `op_reassign` and
`op_rename` do: a missing or empty (falsy) argument is prompted for, and an
argument that fails to normalize is reported and then prompted for. -/
def initStep (arg : Option Str) (inputs : List Str) : Option (Str × List Str) :=
  match arg with
  | none => promptStep inputs
  | some r =>
    if r = [] then promptStep inputs
    else
      match normalize_step_name r with
      | .ok n => some (n, inputs)
      | .error _ => promptStep inputs

/-- Resolving an optional positional sequence argument (`op_reassign`). -/
def initSeq (arg : Option Str) (inputs : List Str) : Option (Str × List Str) :=
  match arg with
  | none => promptSeq inputs
  | some r =>
    if r = [] then promptSeq inputs
    else
      match canonicalize_sequence r with
      | .ok k => some (k, inputs)
      | .error _ => promptSeq inputs

/-! ## Mutating and reporting operations

Each `op_*` result has a `saved` case carrying exactly the document handed
to `atomic_save`; every other case returns without writing. -/

/-- Insert step `c` into sequence `seq`'s list:
`lst = db["map"].setdefault(seq, []); if step not in lst: lst.append(step); lst.sort()`. -/
def addStepToSeq (db : Doc) (c seq : Str) : Doc :=
  let lst := (alookup db.map seq).getD []
  let lst' := if c ∈ lst then lst else sortSteps (lst ++ [c])
  ⟨db.version, setKey db.map seq lst'⟩

inductive AddResult where
  | inconsistent (e : Err) : AddResult
  | blocked : AddResult
  | invalidSeq (e : Err) : AddResult
  | alreadyPresent : AddResult
  | saved (db : Doc) : AddResult
deriving DecidableEq

/-- `op_add(db_path)`: prompt for a step name and a raw sequence; report
`already exists` when the step already maps to the same canonical sequence;
when it maps to a different *truthy* sequence, prompt for an unused name;
then insert and save.  (`if existing and existing != seq:`— a step owned by
the falsy empty-string key skips the conflict branch.) -/
def op_add (db : Doc) (inputs : List Str) : AddResult :=
  match build_reverse_cache db with
  | .error e => .inconsistent e
  | .ok rev =>
    match promptStep inputs with
    | none => .blocked
    | some (step, rest) =>
      match rest with
      | [] => .blocked
      | rawSeq :: rest2 =>
        match canonicalize_sequence (pyStrip rawSeq) with
        | .error e => .invalidSeq e
        | .ok seq =>
          -- `existing = step_to_seq.get(step)`; `existing == seq` holds iff
          -- the lookup found exactly `seq`, and `if existing and ...` is the
          -- nonempty test on the found value
          match alookup rev step with
          | none => .saved (addStepToSeq db step seq)
          | some k =>
            if k = seq then .alreadyPresent
            else if k = [] then .saved (addStepToSeq db step seq)
            else
              match promptFresh rev rest2 with
              | none => .blocked
              | some (c, _) => .saved (addStepToSeq db c seq)

inductive ReassignResult where
  | inconsistent (e : Err) : ReassignResult
  | blocked : ReassignResult
  | notFound : ReassignResult
  | noChange : ReassignResult
  | saved (db : Doc) : ReassignResult
deriving DecidableEq

/-- The move performed by `op_reassign` once step `n` (owned by `old`) and
the destination `nseq` are resolved: remove from the old list in place,
append to the destination list (created if absent) and sort it. -/
def moveStep (db : Doc) (n old nseq : Str) : Doc :=
  let m1 := setKey db.map old
    (((alookup db.map old).getD []).filter (fun s => s ≠ n))
  let lst := (alookup m1 nseq).getD []
  let lst' := if n ∈ lst then lst else sortSteps (lst ++ [n])
  ⟨db.version, setKey m1 nseq lst'⟩

/-- The tail of `op_reassign` after the step has been resolved to `n`
with current owner `old`. -/
def reassignCont (db : Doc) (n old : Str) (seqArg : Option Str)
    (inputs : List Str) : ReassignResult :=
  match initSeq seqArg inputs with
  | none => .blocked
  | some (nseq, _) =>
    if old = nseq then .noChange
    else .saved (moveStep db n old nseq)

/-- `op_reassign(db_path, step, new_seq_raw)`: resolve the step (with one
retry when it is not found), resolve the destination sequence, then move
and save (or report no change when source equals destination). -/
def op_reassign (db : Doc) (stepArg seqArg : Option Str)
    (inputs : List Str) : ReassignResult :=
  match build_reverse_cache db with
  | .error e => .inconsistent e
  | .ok rev =>
    match initStep stepArg inputs with
    | none => .blocked
    | some (n1, rest1) =>
      match alookup rev n1 with
      | some old1 => reassignCont db n1 old1 seqArg rest1
      | none =>
        match promptStep rest1 with
        | none => .blocked
        | some (n2, rest2) =>
          match alookup rev n2 with
          | none => .notFound
          | some old2 => reassignCont db n2 old2 seqArg rest2

inductive RenameResult where
  | inconsistent (e : Err) : RenameResult
  | blocked : RenameResult
  | notFound : RenameResult
  | collision : RenameResult
  | saved (db : Doc) : RenameResult
deriving DecidableEq

/-- The substitution performed by `op_rename` in the owning sequence's list:
`db["map"][seq] = [new if s == old else s for s in db["map"][seq]]` followed
by a sort. -/
def renameInSeq (db : Doc) (old_n new_n seq : Str) : Doc :=
  let l := (alookup db.map seq).getD []
  ⟨db.version,
    setKey db.map seq (sortSteps (l.map (fun s => if s = old_n then new_n else s)))⟩

/-- The tail of `op_rename` after the old name is resolved to `old_n` with
owner `seq`: resolve the new name (with one retry when it collides). -/
def renameCont (db : Doc) (rev : List (Str × Str)) (old_n seq : Str)
    (newArg : Option Str) (inputs : List Str) : RenameResult :=
  match initStep newArg inputs with
  | none => .blocked
  | some (n1, rest1) =>
    if (alookup rev n1).isSome then
      match promptStep rest1 with
      | none => .blocked
      | some (n2, _) =>
        if (alookup rev n2).isSome then .collision
        else .saved (renameInSeq db old_n n2 seq)
    else .saved (renameInSeq db old_n n1 seq)

/-- `op_rename(db_path, old, new)`: resolve the old name (one retry when not
found), resolve a non-colliding new name (one retry), substitute in place
within the owning sequence's list, sort and save. -/
def op_rename (db : Doc) (oldArg newArg : Option Str)
    (inputs : List Str) : RenameResult :=
  match build_reverse_cache db with
  | .error e => .inconsistent e
  | .ok rev =>
    match initStep oldArg inputs with
    | none => .blocked
    | some (o1, rest1) =>
      match alookup rev o1 with
      | some seq => renameCont db rev o1 seq newArg rest1
      | none =>
        match promptStep rest1 with
        | none => .blocked
        | some (o2, rest2) =>
          match alookup rev o2 with
          | none => .notFound
          | some seq => renameCont db rev o2 seq newArg rest2

inductive RemoveResult where
  | inconsistent (e : Err) : RemoveResult
  | invalidStep (e : Err) : RemoveResult
  | notFound : RemoveResult
  | cancelled : RemoveResult
  | blocked : RemoveResult
  | saved (db : Doc) : RemoveResult
deriving DecidableEq

/-- The document written by `op_remove` after the confirmations: all
occurrences of the step are filtered from its owning list, and the entry is
deleted entirely iff `dropEmpty` (i.e. the list became empty and either
`--yes` was given or the second confirmation accepted). -/
def removeStepDoc (db : Doc) (n seq : Str) (dropEmpty : Bool) : Doc :=
  let l' := ((alookup db.map seq).getD []).filter (fun s => s ≠ n)
  ⟨db.version,
    if l' = [] && dropEmpty then delKey db.map seq else setKey db.map seq l'⟩

/-- `op_remove(db_path, step, assume_yes)`: normalize the required step
argument (aborting on an invalid name), look up its owner (a falsy owner —
absent, or the empty-string key — reports not found), confirm the deletion
unless `assume_yes`, delete, and when the list became empty confirm (or
auto-confirm under `assume_yes`) dropping the entry; then always save. -/
def op_remove (db : Doc) (step : Str) (assume_yes : Bool)
    (inputs : List Str) : RemoveResult :=
  match build_reverse_cache db with
  | .error e => .inconsistent e
  | .ok rev =>
    match normalize_step_name step with
    | .error e => .invalidStep e
    | .ok n =>
      match alookup rev n with
      | none => .notFound
      | some seq =>
        if seq = [] then .notFound
        else
          match (if assume_yes then some (true, inputs)
                 else
                   match inputs with
                   | [] => none
                   | i :: is' => some (confirmAns i, is')) with
          | none => .blocked
          | some (ok1, rest) =>
            if !ok1 then .cancelled
            else if ((alookup db.map seq).getD []).filter (fun s => s ≠ n) = []
            then
              if assume_yes then .saved (removeStepDoc db n seq true)
              else
                match rest with
                | [] => .blocked
                | i2 :: _ => .saved (removeStepDoc db n seq (confirmAns i2))
            else .saved (removeStepDoc db n seq false)

inductive GcResult where
  | noChange : GcResult
  | saved (db : Doc) : GcResult
deriving DecidableEq

/-- `op_gc(db_path)`: delete every entry whose step list is empty; save only
when the entry count changed. -/
def op_gc (db : Doc) : GcResult :=
  let m' := db.map.filter (fun p => p.2 ≠ [])
  if m'.length = db.map.length then .noChange
  else .saved ⟨db.version, m'⟩

/-! ## `op_lint` -/

/-- One report line printed by `op_lint`. -/
inductive LintItem where
  /-- `[ERR] step 's': <e>` — a stored step name that fails normalization. -/
  | badStep (s : Str) (e : Err) : LintItem
  /-- `[ERR] step 's' is under [k1] and [k2]`. -/
  | dupStep (s : Str) (k1 k2 : Str) : LintItem
  /-- `[ERR] sequence 'k': <e>` — a key that fails canonicalization. -/
  | badSeq (k : Str) (e : Err) : LintItem
  /-- `[WARN] empty sequence: [k]`. -/
  | warnEmpty (k : Str) : LintItem
deriving DecidableEq

/-- The report and flag of the `normalize_step_name` try/except in lint's
inner loop. -/
def lintNameRep (s : Str) : List LintItem × Bool :=
  match normalize_step_name s with
  | .ok _ => ([], true)
  | .error e => ([.badStep s e], false)

/-- The report and flag of the duplicate-ownership check
(`if s in seen and seen[s] != seq`) in lint's inner loop. -/
def lintDupRep (seq s : Str) (seen : List (Str × Str)) :
    List LintItem × Bool :=
  match alookup seen s with
  | some k => if k = seq then ([], true) else ([.dupStep s k seq], false)
  | none => ([], true)

/-- Lint's scan of one sequence's step list, threading the `seen` dictionary
(`seen[s] = seq` overwrites unconditionally) and the `ok` flag.  Returns the
reports in print order, the conjunction of this list's checks, and the final
`seen`. -/
def lintList (seq : Str) : List Str → List (Str × Str) →
    List LintItem × Bool × List (Str × Str)
  | [], seen => ([], true, seen)
  | s :: ss, seen =>
    let rest := lintList seq ss (setKey seen s seq)
    ((lintNameRep s).1 ++ (lintDupRep seq s seen).1 ++ rest.1,
     (lintNameRep s).2 && (lintDupRep seq s seen).2 && rest.2.1, rest.2.2)

/-- Lint phase 1: duplicate steps across sequences and invalid names. -/
def lintPhase1 : List (Str × List Str) → List (Str × Str) →
    List LintItem × Bool × List (Str × Str)
  | [], seen => ([], true, seen)
  | (seq, steps) :: rest, seen =>
    let a := lintList seq steps seen
    let b := lintPhase1 rest a.2.2
    (a.1 ++ b.1, a.2.1 && b.2.1, b.2.2)

/-- Lint phase 2: validate the sequence keys themselves. -/
def lintPhase2 : List (Str × List Str) → List LintItem × Bool
  | [] => ([], true)
  | (k, _) :: rest =>
    let r := lintPhase2 rest
    match canonicalize_sequence k with
    | .ok _ => r
    | .error e => (.badSeq k e :: r.1, r.2 && false)

/-- Lint phase 3: warnings for empty step lists (they never clear `ok`). -/
def lintPhase3 : List (Str × List Str) → List LintItem
  | [] => []
  | (k, l) :: rest =>
    (if l = [] then [.warnEmpty k] else []) ++ lintPhase3 rest

/-- `op_lint(db_path)`: the full read-only scan.  The first component lists
every report in print order; the second is `True` exactly when the source
reaches `sys.exit(1)`, i.e. when some error-class check failed.  The
function neither returns a document nor calls `atomic_save`: lint never
modifies the store. -/
def op_lint (db : Doc) : List LintItem × Bool :=
  let p1 := lintPhase1 db.map []
  let p2 := lintPhase2 db.map
  (p1.1 ++ p2.1 ++ lintPhase3 db.map, !(p1.2.1 && p2.2))

/-! ## `atomic_save` and crash safety

`atomic_save` serializes into a fresh temporary file in the target
directory and then atomically repoints the storage path with `os.replace`.
We model the storage volume as the contents at the target path plus the
contents of the temporary file, and list every intermediate state the
volume passes through, including every partially-written temporary file.
A crash or error at any point leaves the volume in one of these states. -/

/-- The storage volume: contents at the target path and at the temporary
location (`none` = the file does not exist). -/
structure FS where
  path : Option Str
  tmp : Option Str
deriving DecidableEq

/-- State after `tempfile.mkstemp` created the (empty) temporary file. -/
def fsAfterMkstemp (fs : FS) : FS := { fs with tmp := some [] }

/-- State after the first `k` characters of the serialized document have
been written to the temporary file. -/
def fsAfterPartialWrite (fs : FS) (data : Str) (k : Nat) : FS :=
  { fs with tmp := some (data.take k) }

/-- State after `os.replace(tmp, path)`: the path now holds the complete
new contents and the temporary name is gone, in one atomic step. -/
def fsAfterReplace (fs : FS) (data : Str) : FS :=
  { fs with path := some data, tmp := none }

/-- Every state the volume can be observed in from the call to
`atomic_save` up to (but not including) the atomic replace: the initial
state, the state after `mkstemp`, and each partial write of the payload. -/
def preReplaceStates (fs : FS) (data : Str) : List FS :=
  fs :: fsAfterMkstemp fs ::
    (List.range (data.length + 1)).map (fsAfterPartialWrite fs data)

/-- The complete trace of `atomic_save`: the pre-replace states followed by
the single post-replace state. -/
def atomic_save_states (fs : FS) (data : Str) : List FS :=
  preReplaceStates fs data ++ [fsAfterReplace fs data]

/-! ## Lemmas: association lists -/

theorem alookup_mem {β : Type} {m : List (Str × β)} {k : Str} {v : β}
    (h : alookup m k = some v) : (k, v) ∈ m := by
  induction m with
  | nil => simp [alookup] at h
  | cons p rest ih =>
    obtain ⟨k', v'⟩ := p
    by_cases hk : k' = k
    · subst hk
      simp [alookup] at h
      simp [h]
    · simp [alookup, hk] at h
      exact List.mem_cons_of_mem _ (ih h)

theorem alookup_isSome_of_mem {β : Type} {m : List (Str × β)} {k : Str} {v : β}
    (h : (k, v) ∈ m) : (alookup m k).isSome := by
  induction m with
  | nil => simp at h
  | cons p rest ih =>
    obtain ⟨k', v'⟩ := p
    by_cases hk : k' = k
    · simp [alookup, hk]
    · rcases List.mem_cons.mp h with heq | hmem
      · exact absurd (congrArg Prod.fst heq).symm hk
      · simpa [alookup, hk] using ih hmem

theorem alookup_eq_none {β : Type} {m : List (Str × β)} {k : Str}
    (h : alookup m k = none) : ∀ v, (k, v) ∉ m := by
  intro v hv
  have := alookup_isSome_of_mem hv
  rw [h] at this
  exact Bool.noConfusion this

theorem mem_alookup {β : Type} {m : List (Str × β)} {k : Str} {v : β}
    (hnd : (m.map Prod.fst).Nodup) (h : (k, v) ∈ m) : alookup m k = some v := by
  induction m with
  | nil => simp at h
  | cons p rest ih =>
    obtain ⟨k', v'⟩ := p
    simp only [List.map_cons, List.nodup_cons] at hnd
    rcases List.mem_cons.mp h with heq | hmem
    · injection heq with e1 e2
      subst e1; subst e2
      simp [alookup]
    · by_cases hk : k' = k
      · subst hk
        exact absurd (List.mem_map_of_mem Prod.fst hmem) hnd.1
      · simpa [alookup, hk] using ih hnd.2 hmem

theorem alookup_setKey_self {β : Type} (m : List (Str × β)) (k : Str) (v : β) :
    alookup (setKey m k v) k = some v := by
  induction m with
  | nil => simp [setKey, alookup]
  | cons p rest ih =>
    obtain ⟨k', v'⟩ := p
    by_cases hk : k' = k
    · simp [setKey, hk, alookup]
    · simp [setKey, hk, alookup, ih]

theorem alookup_setKey_ne {β : Type} (m : List (Str × β)) {k k' : Str} (v : β)
    (h : k' ≠ k) : alookup (setKey m k v) k' = alookup m k' := by
  have hk : k ≠ k' := Ne.symm h
  induction m with
  | nil => simp [setKey, alookup, hk]
  | cons p rest ih =>
    obtain ⟨ka, va⟩ := p
    by_cases h1 : ka = k
    · subst h1
      simp [setKey, alookup, hk]
    · simp only [setKey, if_neg h1, alookup]
      by_cases h2 : ka = k'
      · simp [h2]
      · simp [h2, ih]

theorem keys_setKey {β : Type} (m : List (Str × β)) (k : Str) (v : β) :
    (setKey m k v).map Prod.fst = m.map Prod.fst ∨
      (setKey m k v).map Prod.fst = m.map Prod.fst ++ [k] := by
  induction m with
  | nil => simp [setKey]
  | cons p rest ih =>
    obtain ⟨k', v'⟩ := p
    by_cases hk : k' = k
    · simp [setKey, hk]
    · rcases ih with h | h <;> simp [setKey, hk, h]

theorem nodup_setKey {β : Type} {m : List (Str × β)} {k : Str} {v : β}
    (hnd : (m.map Prod.fst).Nodup) : ((setKey m k v).map Prod.fst).Nodup := by
  induction m with
  | nil => simp [setKey]
  | cons p rest ih =>
    obtain ⟨ka, va⟩ := p
    simp only [List.map_cons, List.nodup_cons] at hnd
    by_cases h1 : ka = k
    · subst h1
      rw [show setKey ((ka, va) :: rest) ka v = (ka, v) :: rest from by
        simp [setKey]]
      rw [List.map_cons]
      exact List.nodup_cons.mpr hnd
    · rw [show setKey ((ka, va) :: rest) k v = (ka, va) :: setKey rest k v from by
        simp [setKey, h1]]
      simp only [List.map_cons, List.nodup_cons]
      refine ⟨?_, ih hnd.2⟩
      intro hmem
      rcases keys_setKey rest k v with h | h
      · exact hnd.1 (h ▸ hmem)
      · rw [h, List.mem_append] at hmem
        rcases hmem with h2 | h2
        · exact hnd.1 h2
        · simp at h2
          exact h1 h2

theorem mem_setKey_iff {β : Type} {m : List (Str × β)} {k : Str} {v : β}
    {a : Str} {b : β} (hnd : (m.map Prod.fst).Nodup) :
    (a, b) ∈ setKey m k v ↔ (a = k ∧ b = v) ∨ (a ≠ k ∧ (a, b) ∈ m) := by
  induction m with
  | nil =>
    constructor
    · intro h
      simp only [setKey, List.mem_singleton] at h
      injection h with e1 e2
      exact Or.inl ⟨e1, e2⟩
    · rintro (⟨e1, e2⟩ | ⟨_, h⟩)
      · subst e1; subst e2; simp [setKey]
      · simp at h
  | cons p rest ih =>
    obtain ⟨ka, va⟩ := p
    simp only [List.map_cons, List.nodup_cons] at hnd
    by_cases h1 : ka = k
    · subst h1
      rw [show setKey ((ka, va) :: rest) ka v = (ka, v) :: rest from by
        simp [setKey]]
      constructor
      · intro h
        rcases List.mem_cons.mp h with heq | hmem
        · injection heq with e1 e2
          exact Or.inl ⟨e1, e2⟩
        · have hne : a ≠ ka := by
            intro e; subst e
            exact hnd.1 (List.mem_map_of_mem Prod.fst hmem)
          exact Or.inr ⟨hne, List.mem_cons_of_mem _ hmem⟩
      · rintro (⟨e1, e2⟩ | ⟨hne, hmem⟩)
        · subst e1; subst e2; exact List.mem_cons_self _ _
        · rcases List.mem_cons.mp hmem with heq | hmem2
          · exact absurd (congrArg Prod.fst heq) hne
          · exact List.mem_cons_of_mem _ hmem2
    · rw [show setKey ((ka, va) :: rest) k v = (ka, va) :: setKey rest k v from by
        simp [setKey, h1]]
      constructor
      · intro h
        rcases List.mem_cons.mp h with heq | hmem
        · injection heq with e1 e2
          subst e1; subst e2
          exact Or.inr ⟨h1, List.mem_cons_self _ _⟩
        · rcases (ih hnd.2).mp hmem with ⟨e1, e2⟩ | ⟨hne, hmem2⟩
          · exact Or.inl ⟨e1, e2⟩
          · exact Or.inr ⟨hne, List.mem_cons_of_mem _ hmem2⟩
      · rintro (⟨e1, e2⟩ | ⟨hne, hmem⟩)
        · subst e1; subst e2
          exact List.mem_cons_of_mem _ ((ih hnd.2).mpr (Or.inl ⟨rfl, rfl⟩))
        · rcases List.mem_cons.mp hmem with heq | hmem2
          · exact heq ▸ List.mem_cons_self _ _
          · exact List.mem_cons_of_mem _ ((ih hnd.2).mpr (Or.inr ⟨hne, hmem2⟩))

theorem mem_delKey {β : Type} {m : List (Str × β)} {k : Str}
    {a : Str} {b : β} (h : (a, b) ∈ delKey m k) : (a, b) ∈ m := by
  induction m with
  | nil => simp [delKey] at h
  | cons p rest ih =>
    obtain ⟨k', v'⟩ := p
    by_cases hk : k' = k
    · simp only [delKey, if_pos hk] at h
      exact List.mem_cons_of_mem _ h
    · simp only [delKey, if_neg hk, List.mem_cons] at h
      rcases h with heq | hmem
      · exact heq ▸ List.mem_cons_self _ _
      · exact List.mem_cons_of_mem _ (ih hmem)

theorem nodup_delKey {β : Type} {m : List (Str × β)} {k : Str}
    (hnd : (m.map Prod.fst).Nodup) : ((delKey m k).map Prod.fst).Nodup := by
  induction m with
  | nil => simp [delKey]
  | cons p rest ih =>
    obtain ⟨k', v'⟩ := p
    simp only [List.map_cons, List.nodup_cons] at hnd
    by_cases hk : k' = k
    · simp only [delKey, if_pos hk]
      exact hnd.2
    · simp only [delKey, if_neg hk, List.map_cons, List.nodup_cons]
      refine ⟨?_, ih hnd.2⟩
      intro hmem
      obtain ⟨⟨a, b⟩, hab, he⟩ := List.mem_map.mp hmem
      exact hnd.1 (List.mem_map.mpr ⟨(a, b), mem_delKey hab, he⟩)

theorem mem_sortSteps {l : List Str} {s : Str} : s ∈ sortSteps l ↔ s ∈ l :=
  List.mem_insertionSort _

/-! ## Lemmas: the reverse cache -/

theorem alookup_append {β : Type} (m1 m2 : List (Str × β)) (k : Str) :
    alookup (m1 ++ m2) k =
      match alookup m1 k with
      | some v => some v
      | none => alookup m2 k := by
  induction m1 with
  | nil => simp [alookup]
  | cons p rest ih =>
    obtain ⟨k', v'⟩ := p
    by_cases hk : k' = k
    · simp [alookup, hk]
    · simp [alookup, hk, ih]

theorem revInsert_ok_self {rev : List (Str × Str)} {s seq : Str}
    {rev2 : List (Str × Str)} (h : revInsert rev s seq = .ok rev2) :
    alookup rev2 s = some seq := by
  unfold revInsert at h
  cases hl : alookup rev s with
  | some k =>
    rw [hl] at h
    by_cases hk : k = seq
    · subst hk
      simp at h
      subst h
      exact hl
    · simp [hk] at h
  | none =>
    rw [hl] at h
    simp at h
    subst h
    rw [alookup_append, hl]
    simp [alookup]

theorem revInsert_ok_other {rev : List (Str × Str)} {s seq : Str}
    {rev2 : List (Str × Str)} (h : revInsert rev s seq = .ok rev2) (t : Str)
    (ht : t ≠ s) : alookup rev2 t = alookup rev t := by
  unfold revInsert at h
  cases hl : alookup rev s with
  | some k =>
    rw [hl] at h
    by_cases hk : k = seq
    · subst hk; simp at h; subst h; rfl
    · simp [hk] at h
  | none =>
    rw [hl] at h
    simp at h
    subst h
    rw [alookup_append]
    cases hlt : alookup rev t with
    | some v => rfl
    | none => simp [alookup, Ne.symm ht]

theorem revInsert_ok_keeps {rev : List (Str × Str)} {s seq : Str}
    {rev2 : List (Str × Str)} (h : revInsert rev s seq = .ok rev2)
    {t k : Str} (ht : alookup rev t = some k) : alookup rev2 t = some k := by
  by_cases hts : t = s
  · subst hts
    unfold revInsert at h
    rw [ht] at h
    by_cases hk : k = seq
    · subst hk; simp at h; subst h; exact ht
    · simp [hk] at h
  · rw [revInsert_ok_other h t hts]; exact ht

theorem revInsert_ok_of_forced {rev : List (Str × Str)} {s seq : Str}
    (hf : ∀ k, alookup rev s = some k → k = seq) :
    ∃ rev2, revInsert rev s seq = .ok rev2 := by
  unfold revInsert
  cases hl : alookup rev s with
  | some k =>
    have := hf k hl
    subst this
    simp
  | none => simp

theorem revAddList_ok_keeps {seq : Str} {steps : List Str}
    {rev rev' : List (Str × Str)} (h : revAddList seq steps rev = .ok rev')
    {t k : Str} (ht : alookup rev t = some k) : alookup rev' t = some k := by
  induction steps generalizing rev with
  | nil => simp [revAddList] at h; subst h; exact ht
  | cons s ss ih =>
    unfold revAddList at h
    cases hi : revInsert rev s seq with
    | error e => rw [hi] at h; exact absurd h (by simp)
    | ok rev1 =>
      rw [hi] at h
      exact ih h (revInsert_ok_keeps hi ht)

theorem revAddList_ok_mem {seq : Str} {steps : List Str}
    {rev rev' : List (Str × Str)} (h : revAddList seq steps rev = .ok rev')
    {s : Str} (hs : s ∈ steps) : alookup rev' s = some seq := by
  induction steps generalizing rev with
  | nil => simp at hs
  | cons a ss ih =>
    unfold revAddList at h
    cases hi : revInsert rev a seq with
    | error e => rw [hi] at h; exact absurd h (by simp)
    | ok rev1 =>
      rw [hi] at h
      rcases List.mem_cons.mp hs with heq | hmem
      · subst heq
        exact revAddList_ok_keeps h (revInsert_ok_self hi)
      · exact ih h hmem

theorem revAddList_ok_new {seq : Str} {steps : List Str}
    {rev rev' : List (Str × Str)} (h : revAddList seq steps rev = .ok rev')
    {s k : Str} (hs : alookup rev' s = some k) :
    alookup rev s = some k ∨ (k = seq ∧ s ∈ steps) := by
  induction steps generalizing rev with
  | nil => simp [revAddList] at h; subst h; exact Or.inl hs
  | cons a ss ih =>
    unfold revAddList at h
    cases hi : revInsert rev a seq with
    | error e => rw [hi] at h; exact absurd h (by simp)
    | ok rev1 =>
      rw [hi] at h
      rcases ih h with h1 | ⟨hk, hmem⟩
      · by_cases has : s = a
        · subst has
          have := revInsert_ok_self hi
          rw [this] at h1
          injection h1 with e
          exact Or.inr ⟨e.symm, List.mem_cons_self _ _⟩
        · rw [revInsert_ok_other hi s has] at h1
          exact Or.inl h1
      · exact Or.inr ⟨hk, List.mem_cons_of_mem _ hmem⟩

theorem revAddList_ok_of_forced {seq : Str} {steps : List Str}
    {rev : List (Str × Str)}
    (hf : ∀ s ∈ steps, ∀ k, alookup rev s = some k → k = seq) :
    ∃ rev', revAddList seq steps rev = .ok rev' := by
  induction steps generalizing rev with
  | nil => exact ⟨rev, rfl⟩
  | cons a ss ih =>
    obtain ⟨rev1, h1⟩ :=
      revInsert_ok_of_forced (hf a (List.mem_cons_self _ _))
    have hf' : ∀ s ∈ ss, ∀ k, alookup rev1 s = some k → k = seq := by
      intro s hs k hk
      by_cases has : s = a
      · subst has
        have := revInsert_ok_self h1
        rw [this] at hk
        injection hk with e
        exact e.symm
      · rw [revInsert_ok_other h1 s has] at hk
        exact hf s (List.mem_cons_of_mem _ hs) k hk
    obtain ⟨rev', h2⟩ := ih hf'
    exact ⟨rev', by unfold revAddList; rw [h1]; exact h2⟩

theorem revBuildAux_ok_keeps {pairs : List (Str × List Str)}
    {rev rev' : List (Str × Str)} (h : revBuildAux pairs rev = .ok rev')
    {t k : Str} (ht : alookup rev t = some k) : alookup rev' t = some k := by
  induction pairs generalizing rev with
  | nil => simp [revBuildAux] at h; subst h; exact ht
  | cons p rest ih =>
    obtain ⟨seq, steps⟩ := p
    unfold revBuildAux at h
    cases hi : revAddList seq steps rev with
    | error e => rw [hi] at h; exact absurd h (by simp)
    | ok rev1 =>
      rw [hi] at h
      exact ih h (revAddList_ok_keeps hi ht)

theorem revBuildAux_ok_lookup {pairs : List (Str × List Str)}
    {rev rev' : List (Str × Str)} (h : revBuildAux pairs rev = .ok rev')
    {k : Str} {l : List Str} {s : Str} (hkl : (k, l) ∈ pairs) (hs : s ∈ l) :
    alookup rev' s = some k := by
  induction pairs generalizing rev with
  | nil => simp at hkl
  | cons p rest ih =>
    obtain ⟨seq, steps⟩ := p
    unfold revBuildAux at h
    cases hi : revAddList seq steps rev with
    | error e => rw [hi] at h; exact absurd h (by simp)
    | ok rev1 =>
      rw [hi] at h
      rcases List.mem_cons.mp hkl with heq | hmem
      · injection heq with e1 e2
        subst e1; subst e2
        exact revBuildAux_ok_keeps h (revAddList_ok_mem hi hs)
      · exact ih h hmem

theorem revBuildAux_ok_new {pairs : List (Str × List Str)}
    {rev rev' : List (Str × Str)} (h : revBuildAux pairs rev = .ok rev')
    {s k : Str} (hs : alookup rev' s = some k) :
    alookup rev s = some k ∨ ∃ l, (k, l) ∈ pairs ∧ s ∈ l := by
  induction pairs generalizing rev with
  | nil => simp [revBuildAux] at h; subst h; exact Or.inl hs
  | cons p rest ih =>
    obtain ⟨seq, steps⟩ := p
    unfold revBuildAux at h
    cases hi : revAddList seq steps rev with
    | error e => rw [hi] at h; exact absurd h (by simp)
    | ok rev1 =>
      rw [hi] at h
      rcases ih h with h1 | ⟨l, hl, hsl⟩
      · rcases revAddList_ok_new hi h1 with h2 | ⟨hk, hmem⟩
        · exact Or.inl h2
        · exact Or.inr ⟨steps, hk ▸ List.mem_cons_self _ _, hmem⟩
      · exact Or.inr ⟨l, List.mem_cons_of_mem _ hl, hsl⟩

theorem revBuildAux_ok_of_unique {pairs : List (Str × List Str)}
    {rev : List (Str × Str)}
    (hinv : ∀ s k, alookup rev s = some k →
      ∀ k2 l2, (k2, l2) ∈ pairs → s ∈ l2 → k2 = k)
    (hu : ∀ k1 l1 k2 l2 s, (k1, l1) ∈ pairs → (k2, l2) ∈ pairs →
      s ∈ l1 → s ∈ l2 → k1 = k2) :
    ∃ rev', revBuildAux pairs rev = .ok rev' := by
  induction pairs generalizing rev with
  | nil => exact ⟨rev, rfl⟩
  | cons p rest ih =>
    obtain ⟨seq, steps⟩ := p
    have hf0 : ∀ s ∈ steps, ∀ k, alookup rev s = some k → k = seq :=
      fun s hs k hk =>
        (hinv s k hk seq steps (List.mem_cons_self _ _) hs).symm
    obtain ⟨rev1, h1⟩ := revAddList_ok_of_forced hf0
    have hinv' : ∀ s k, alookup rev1 s = some k →
        ∀ k2 l2, (k2, l2) ∈ rest → s ∈ l2 → k2 = k := by
      intro s k hk k2 l2 hmem hs
      rcases revAddList_ok_new h1 hk with h2 | ⟨hkseq, hsteps⟩
      · exact hinv s k h2 k2 l2 (List.mem_cons_of_mem _ hmem) hs
      · exact (hu k2 l2 seq steps s (List.mem_cons_of_mem _ hmem)
          (List.mem_cons_self _ _) hs hsteps).trans hkseq.symm
    have hu' : ∀ k1 l1 k2 l2 s, (k1, l1) ∈ rest → (k2, l2) ∈ rest →
        s ∈ l1 → s ∈ l2 → k1 = k2 := fun k1 l1 k2 l2 s m1 m2 =>
      hu k1 l1 k2 l2 s (List.mem_cons_of_mem _ m1) (List.mem_cons_of_mem _ m2)
    obtain ⟨rev', h2⟩ := ih hinv' hu'
    exact ⟨rev', by unfold revBuildAux; rw [h1]; exact h2⟩

/-- If the reverse cache builds, each step of each list maps to its key. -/
theorem build_ok_lookup {db : Doc} {rev : List (Str × Str)}
    (h : build_reverse_cache db = .ok rev) {k : Str} {l : List Str} {s : Str}
    (hkl : (k, l) ∈ db.map) (hs : s ∈ l) : alookup rev s = some k :=
  revBuildAux_ok_lookup h hkl hs

/-- Every entry of a successfully built reverse cache comes from the map. -/
theorem build_ok_mem {db : Doc} {rev : List (Str × Str)}
    (h : build_reverse_cache db = .ok rev) {s k : Str}
    (hs : alookup rev s = some k) : ∃ l, (k, l) ∈ db.map ∧ s ∈ l := by
  rcases revBuildAux_ok_new h hs with h1 | h2
  · simp [alookup] at h1
  · exact h2

/-- A step missing from a successfully built reverse cache occurs in no
step list of the document. -/
theorem build_ok_none {db : Doc} {rev : List (Str × Str)}
    (h : build_reverse_cache db = .ok rev) {s : Str}
    (hs : alookup rev s = none) : ∀ k l, (k, l) ∈ db.map → s ∉ l := by
  intro k l hkl hsl
  have := build_ok_lookup h hkl hsl
  rw [hs] at this
  exact Option.noConfusion this

/-- A successful build certifies the uniqueness invariant. -/
theorem build_ok_unique {db : Doc} {rev : List (Str × Str)}
    (h : build_reverse_cache db = .ok rev) : UniqueOwners db := by
  intro k1 l1 k2 l2 s h1 h2 hs1 hs2
  have e1 := build_ok_lookup h h1 hs1
  have e2 := build_ok_lookup h h2 hs2
  rw [e1] at e2
  exact Option.some.inj e2

/-- Conversely, the build succeeds on every document satisfying the
uniqueness invariant — in particular a step repeated inside a single list
does not trip the check. -/
theorem build_ok_of_unique {db : Doc} (hu : UniqueOwners db) :
    ∃ rev, build_reverse_cache db = .ok rev := by
  unfold build_reverse_cache
  refine revBuildAux_ok_of_unique ?_ hu
  intro s k hk
  simp [alookup] at hk

/-! ## Lemmas: the mutations preserve the uniqueness invariant -/

theorem alookup_getD_mem {m : List (Str × List Str)} {k : Str} {s : Str}
    (hs : s ∈ (alookup m k).getD []) : (k, (alookup m k).getD []) ∈ m := by
  cases h : alookup m k with
  | none => rw [h] at hs; simp at hs
  | some l => simpa using alookup_mem h

/-- The name produced by `op_add`'s conflict loop is absent from the
reverse cache. -/
theorem promptFresh_none {rev : List (Str × Str)} {l : List Str}
    {c : Str} {rest : List Str} (h : promptFresh rev l = some (c, rest)) :
    alookup rev c = none := by
  induction l with
  | nil => simp [promptFresh] at h
  | cons r rs ih =>
    unfold promptFresh at h
    split at h
    · exact ih h
    · split at h
      · exact ih h
      · rename_i hs
        injection h with h2
        injection h2 with e1 e2
        subst e1
        exact Option.not_isSome_iff_eq_none.mp hs

/-- Inserting a step that occurs nowhere in the document preserves the
uniqueness invariant. -/
theorem unique_addStepToSeq {db : Doc} (hnd : KeysNodup db)
    (hu : UniqueOwners db) {c seq : Str}
    (hc : ∀ k l, (k, l) ∈ db.map → c ∉ l) :
    UniqueOwners (addStepToSeq db c seq) := by
  intro k1 l1 k2 l2 s h1 h2 hs1 hs2
  simp only [addStepToSeq] at h1 h2
  set lst := (alookup db.map seq).getD [] with hlst
  set L := if c ∈ lst then lst else sortSteps (lst ++ [c]) with hL
  have hmemL : ∀ t, t ∈ L → t ∈ lst ∨ t = c := by
    intro t ht
    rw [hL] at ht
    by_cases hcl : c ∈ lst
    · rw [if_pos hcl] at ht; exact Or.inl ht
    · rw [if_neg hcl] at ht
      rcases List.mem_append.mp (mem_sortSteps.mp ht) with h | h
      · exact Or.inl h
      · simp at h; exact Or.inr h
  have key : ∀ k l t, (k, l) ∈ setKey db.map seq L → t ∈ l →
      (k = seq ∧ (t ∈ lst ∨ t = c)) ∨ (k ≠ seq ∧ (k, l) ∈ db.map) := by
    intro k l t hm ht
    rcases (mem_setKey_iff hnd).mp hm with ⟨e1, e2⟩ | ⟨hne, hm2⟩
    · exact Or.inl ⟨e1, hmemL t (e2 ▸ ht)⟩
    · exact Or.inr ⟨hne, hm2⟩
  rcases key k1 l1 s h1 hs1 with ⟨e1, hin1⟩ | ⟨hne1, hm1⟩ <;>
    rcases key k2 l2 s h2 hs2 with ⟨e2, hin2⟩ | ⟨hne2, hm2⟩
  · exact e1.trans e2.symm
  · rcases hin1 with hsl | hsc
    · exact e1.trans (hu seq lst k2 l2 s (alookup_getD_mem hsl) hm2 hsl hs2)
    · exact absurd (hsc ▸ hs2) (hc k2 l2 hm2)
  · rcases hin2 with hsl | hsc
    · exact (hu k1 l1 seq lst s hm1 (alookup_getD_mem hsl) hs1 hsl).trans e2.symm
    · exact absurd (hsc ▸ hs1) (hc k1 l1 hm1)
  · exact hu k1 l1 k2 l2 s hm1 hm2 hs1 hs2

/-- Moving a step from its (unique) owner to another sequence preserves the
uniqueness invariant. -/
theorem unique_moveStep {db : Doc} (hnd : KeysNodup db)
    {rev : List (Str × Str)} (hb : build_reverse_cache db = .ok rev)
    {n old nseq : Str} (hn : alookup rev n = some old) :
    UniqueOwners (moveStep db n old nseq) := by
  have hu := build_ok_unique hb
  have howner : ∀ k l, (k, l) ∈ db.map → n ∈ l → k = old := by
    intro k l hm hnl
    have := build_ok_lookup hb hm hnl
    rw [hn] at this
    exact (Option.some.inj this).symm
  intro k1 l1 k2 l2 s h1 h2 hs1 hs2
  simp only [moveStep] at h1 h2
  set lOld := (alookup db.map old).getD [] with hlOld
  set m1 := setKey db.map old (lOld.filter (fun s => s ≠ n)) with hm1
  have hnd1 : (m1.map Prod.fst).Nodup := nodup_setKey hnd
  set lst := (alookup m1 nseq).getD [] with hlst
  set L := if n ∈ lst then lst else sortSteps (lst ++ [n]) with hL
  have hmemL : ∀ t, t ∈ L → t ∈ lst ∨ t = n := by
    intro t ht
    rw [hL] at ht
    by_cases hcl : n ∈ lst
    · rw [if_pos hcl] at ht; exact Or.inl ht
    · rw [if_neg hcl] at ht
      rcases List.mem_append.mp (mem_sortSteps.mp ht) with h | h
      · exact Or.inl h
      · simp at h; exact Or.inr h
  -- classify an entry of the final map together with a member of its list
  have key : ∀ k l t, (k, l) ∈ setKey m1 nseq L → t ∈ l →
      (k = nseq ∧ (t ∈ lst ∨ t = n)) ∨
      (k ≠ nseq ∧ k = old ∧ t ∈ lOld ∧ t ≠ n) ∨
      (k ≠ nseq ∧ k ≠ old ∧ (k, l) ∈ db.map) := by
    intro k l t hm ht
    rcases (mem_setKey_iff hnd1).mp hm with ⟨e1, e2⟩ | ⟨hne, hm2⟩
    · exact Or.inl ⟨e1, hmemL t (e2 ▸ ht)⟩
    · rcases (mem_setKey_iff hnd).mp hm2 with ⟨e1, e2⟩ | ⟨hne2, hm3⟩
      · subst e2
        have := List.mem_filter.mp ht
        refine Or.inr (Or.inl ⟨hne, e1, this.1, ?_⟩)
        simpa using this.2
      · exact Or.inr (Or.inr ⟨hne, hne2, hm3⟩)
  -- a member of `lst` lives in the document under `nseq`
  have hlstmem : ∀ t, t ∈ lst → ∃ l0, (nseq, l0) ∈ db.map ∧ t ∈ l0 := by
    intro t ht
    by_cases hno : nseq = old
    · subst hno
      -- lookup in m1 at the overwritten key
      rw [hlst, hm1, alookup_setKey_self] at ht
      simp only [Option.getD_some] at ht
      have := List.mem_filter.mp ht
      exact ⟨lOld, alookup_getD_mem this.1, this.1⟩
    · rw [hlst, hm1, alookup_setKey_ne _ _ hno] at ht
      exact ⟨_, alookup_getD_mem ht, ht⟩
  -- now the case analysis
  rcases key k1 l1 s h1 hs1 with ⟨e1, hin1⟩ | ⟨hne1, e1, hin1, hnn1⟩ | ⟨hne1, hno1, hm1'⟩ <;>
    rcases key k2 l2 s h2 hs2 with ⟨e2, hin2⟩ | ⟨hne2, e2, hin2, hnn2⟩ | ⟨hne2, hno2, hm2'⟩
  · exact e1.trans e2.symm
  · -- k1 = nseq, k2 = old, s ∈ lOld, s ≠ n
    rcases hin1 with hsl | hsc
    · obtain ⟨l0, hm0, ht0⟩ := hlstmem s hsl
      exact e1.trans
        ((hu nseq l0 old lOld s hm0 (alookup_getD_mem hin2) ht0 hin2).trans e2.symm)
    · exact absurd hsc hnn2
  · -- k1 = nseq, k2 other
    rcases hin1 with hsl | hsc
    · obtain ⟨l0, hm0, ht0⟩ := hlstmem s hsl
      exact e1.trans (hu nseq l0 k2 l2 s hm0 hm2' ht0 hs2)
    · exact absurd (howner k2 l2 hm2' (hsc ▸ hs2)) hno2
  · -- k1 = old, k2 = nseq
    rcases hin2 with hsl | hsc
    · obtain ⟨l0, hm0, ht0⟩ := hlstmem s hsl
      exact e1.trans
        ((hu old lOld nseq l0 s (alookup_getD_mem hin1) hm0 hin1 ht0).trans e2.symm)
    · exact absurd hsc hnn1
  · exact e1.trans e2.symm
  · -- k1 = old, k2 other
    exact e1.trans (hu old lOld k2 l2 s (alookup_getD_mem hin1) hm2' hin1 hs2)
  · -- k1 other, k2 = nseq
    rcases hin2 with hsl | hsc
    · obtain ⟨l0, hm0, ht0⟩ := hlstmem s hsl
      exact (hu k1 l1 nseq l0 s hm1' hm0 hs1 ht0).trans e2.symm
    · exact absurd (howner k1 l1 hm1' (hsc ▸ hs1)) hno1
  · -- k1 other, k2 = old
    exact (hu k1 l1 old lOld s hm1' (alookup_getD_mem hin2) hs1 hin2).trans e2.symm
  · exact hu k1 l1 k2 l2 s hm1' hm2' hs1 hs2

/-- Renaming a step to a name that occurs nowhere in the document preserves
the uniqueness invariant. -/
theorem unique_renameInSeq {db : Doc} (hnd : KeysNodup db)
    {rev : List (Str × Str)} (hb : build_reverse_cache db = .ok rev)
    {old_n new_n seq : Str} (hnew : alookup rev new_n = none) :
    UniqueOwners (renameInSeq db old_n new_n seq) := by
  have hu := build_ok_unique hb
  have hnothere := build_ok_none hb hnew
  intro k1 l1 k2 l2 s h1 h2 hs1 hs2
  simp only [renameInSeq] at h1 h2
  set l := (alookup db.map seq).getD [] with hl
  set L := sortSteps (l.map (fun t => if t = old_n then new_n else t)) with hL
  have hmemL : ∀ t, t ∈ L → t = new_n ∨ t ∈ l := by
    intro t ht
    rw [hL] at ht
    obtain ⟨u, hul, he⟩ := List.mem_map.mp (mem_sortSteps.mp ht)
    by_cases hcase : u = old_n
    · rw [if_pos hcase] at he; exact Or.inl he.symm
    · rw [if_neg hcase] at he; exact Or.inr (he ▸ hul)
  have key : ∀ k l2 t, (k, l2) ∈ setKey db.map seq L → t ∈ l2 →
      (k = seq ∧ (t = new_n ∨ t ∈ l)) ∨ (k ≠ seq ∧ (k, l2) ∈ db.map) := by
    intro k l2 t hm ht
    rcases (mem_setKey_iff hnd).mp hm with ⟨e1, e2⟩ | ⟨hne, hm2⟩
    · exact Or.inl ⟨e1, hmemL t (e2 ▸ ht)⟩
    · exact Or.inr ⟨hne, hm2⟩
  rcases key k1 l1 s h1 hs1 with ⟨e1, hin1⟩ | ⟨hne1, hm1⟩ <;>
    rcases key k2 l2 s h2 hs2 with ⟨e2, hin2⟩ | ⟨hne2, hm2⟩
  · exact e1.trans e2.symm
  · rcases hin1 with hsc | hsl
    · exact absurd (hsc ▸ hs2) (hnothere k2 l2 hm2)
    · exact e1.trans (hu seq l k2 l2 s (alookup_getD_mem hsl) hm2 hsl hs2)
  · rcases hin2 with hsc | hsl
    · exact absurd (hsc ▸ hs1) (hnothere k1 l1 hm1)
    · exact (hu k1 l1 seq l s hm1 (alookup_getD_mem hsl) hs1 hsl).trans e2.symm
  · exact hu k1 l1 k2 l2 s hm1 hm2 hs1 hs2

/-- Removing a step (and possibly its emptied entry) preserves the
uniqueness invariant. -/
theorem unique_removeStepDoc {db : Doc} (hnd : KeysNodup db)
    (hu : UniqueOwners db) {n seq : Str} {dropEmpty : Bool} :
    UniqueOwners (removeStepDoc db n seq dropEmpty) := by
  intro k1 l1 k2 l2 s h1 h2 hs1 hs2
  simp only [removeStepDoc] at h1 h2
  set l0 := (alookup db.map seq).getD [] with hl0
  set lf := l0.filter (fun t => t ≠ n) with hlf
  by_cases hca : (lf = [] && dropEmpty) = true
  · rw [if_pos hca] at h1 h2
    exact hu k1 l1 k2 l2 s (mem_delKey h1) (mem_delKey h2) hs1 hs2
  · rw [if_neg hca] at h1 h2
    have key : ∀ k l2 t, (k, l2) ∈ setKey db.map seq lf → t ∈ l2 →
        (k = seq ∧ t ∈ l0) ∨ (k ≠ seq ∧ (k, l2) ∈ db.map) := by
      intro k l2 t hm ht
      rcases (mem_setKey_iff hnd).mp hm with ⟨e1, e2⟩ | ⟨hne, hm2⟩
      · rw [e2, hlf] at ht
        exact Or.inl ⟨e1, (List.mem_filter.mp ht).1⟩
      · exact Or.inr ⟨hne, hm2⟩
    rcases key k1 l1 s h1 hs1 with ⟨e1, hin1⟩ | ⟨hne1, hm1⟩ <;>
      rcases key k2 l2 s h2 hs2 with ⟨e2, hin2⟩ | ⟨hne2, hm2⟩
    · exact e1.trans e2.symm
    · exact e1.trans (hu seq l0 k2 l2 s (alookup_getD_mem hin1) hm2 hin1 hs2)
    · exact (hu k1 l1 seq l0 s hm1 (alookup_getD_mem hin2) hs1 hin2).trans e2.symm
    · exact hu k1 l1 k2 l2 s hm1 hm2 hs1 hs2

/-- Dropping empty entries (`op_gc`) preserves the uniqueness invariant. -/
theorem unique_gcDoc {db : Doc} (hu : UniqueOwners db) :
    UniqueOwners ⟨db.version, db.map.filter (fun p => p.2 ≠ [])⟩ := by
  intro k1 l1 k2 l2 s h1 h2 hs1 hs2
  exact hu k1 l1 k2 l2 s (List.mem_filter.mp h1).1 (List.mem_filter.mp h2).1
    hs1 hs2

/-! ## Lemmas: inverting a successful save -/

/-- A successful `op_add` saves `addStepToSeq db c seq` for a chosen name
`c` that the reverse cache maps to nothing — or, in the degenerate case, to
the falsy empty-string key. -/
theorem op_add_saved_inv {db : Doc} {inputs : List Str} {db2 : Doc}
    (h : op_add db inputs = .saved db2) :
    ∃ rev c seq, build_reverse_cache db = .ok rev ∧
      (alookup rev c = none ∨ alookup rev c = some []) ∧
      db2 = addStepToSeq db c seq := by
  unfold op_add at h
  cases hb : build_reverse_cache db with
  | error e => simp only [hb] at h; exact AddResult.noConfusion h
  | ok rev =>
    simp only [hb] at h
    cases hp : promptStep inputs with
    | none => simp only [hp] at h; exact AddResult.noConfusion h
    | some pr =>
      obtain ⟨step, rest⟩ := pr
      simp only [hp] at h
      cases rest with
      | nil => exact AddResult.noConfusion h
      | cons rawSeq rest2 =>
        cases hc : canonicalize_sequence (pyStrip rawSeq) with
        | error e => simp only [hc] at h; exact AddResult.noConfusion h
        | ok seq =>
          simp only [hc] at h
          cases he : alookup rev step with
          | none =>
            simp only [he, AddResult.saved.injEq] at h
            exact ⟨rev, step, seq, rfl, Or.inl he, h.symm⟩
          | some k =>
            simp only [he] at h
            by_cases hks : k = seq
            · rw [if_pos hks] at h
              exact AddResult.noConfusion h
            · rw [if_neg hks] at h
              by_cases hke : k = []
              · rw [if_pos hke] at h
                simp only [AddResult.saved.injEq] at h
                exact ⟨rev, step, seq, rfl, Or.inr (hke ▸ he), h.symm⟩
              · rw [if_neg hke] at h
                cases hf : promptFresh rev rest2 with
                | none => simp only [hf] at h; exact AddResult.noConfusion h
                | some pc =>
                  obtain ⟨c, rest3⟩ := pc
                  simp only [hf, AddResult.saved.injEq] at h
                  exact ⟨rev, c, seq, rfl, Or.inl (promptFresh_none hf), h.symm⟩

/-- A saving `reassignCont` moved the step to a destination different from
its current owner. -/
theorem reassignCont_saved_inv {db : Doc} {n old : Str} {seqArg : Option Str}
    {inputs : List Str} {db2 : Doc}
    (h : reassignCont db n old seqArg inputs = .saved db2) :
    ∃ nseq, old ≠ nseq ∧ db2 = moveStep db n old nseq := by
  unfold reassignCont at h
  cases hs : initSeq seqArg inputs with
  | none => simp only [hs] at h; exact ReassignResult.noConfusion h
  | some ps =>
    obtain ⟨nseq, rest2⟩ := ps
    simp only [hs] at h
    by_cases hne : old = nseq
    · rw [if_pos hne] at h
      exact ReassignResult.noConfusion h
    · rw [if_neg hne] at h
      simp only [ReassignResult.saved.injEq] at h
      exact ⟨nseq, hne, h.symm⟩

/-- A successful `op_reassign` saves `moveStep db n old nseq` where the
reverse cache maps `n` to `old` and the destination differs from `old`. -/
theorem op_reassign_saved_inv {db : Doc} {stepArg seqArg : Option Str}
    {inputs : List Str} {db2 : Doc}
    (h : op_reassign db stepArg seqArg inputs = .saved db2) :
    ∃ rev n old nseq, build_reverse_cache db = .ok rev ∧
      alookup rev n = some old ∧ old ≠ nseq ∧
      db2 = moveStep db n old nseq := by
  unfold op_reassign at h
  cases hb : build_reverse_cache db with
  | error e => simp only [hb] at h; exact ReassignResult.noConfusion h
  | ok rev =>
    simp only [hb] at h
    cases hp : initStep stepArg inputs with
    | none => simp only [hp] at h; exact ReassignResult.noConfusion h
    | some pr =>
      obtain ⟨n1, rest1⟩ := pr
      simp only [hp] at h
      cases h1 : alookup rev n1 with
      | some old1 =>
        simp only [h1] at h
        obtain ⟨nseq, hne, he⟩ := reassignCont_saved_inv h
        exact ⟨rev, n1, old1, nseq, rfl, h1, hne, he⟩
      | none =>
        simp only [h1] at h
        cases hp2 : promptStep rest1 with
        | none => simp only [hp2] at h; exact ReassignResult.noConfusion h
        | some pr2 =>
          obtain ⟨n2, rest2⟩ := pr2
          simp only [hp2] at h
          cases h2 : alookup rev n2 with
          | none => simp only [h2] at h; exact ReassignResult.noConfusion h
          | some old2 =>
            simp only [h2] at h
            obtain ⟨nseq, hne, he⟩ := reassignCont_saved_inv h
            exact ⟨rev, n2, old2, nseq, rfl, h2, hne, he⟩

/-- A saving `renameCont` renamed to a name absent from the reverse
cache. -/
theorem renameCont_saved_inv {db : Doc} {rev : List (Str × Str)}
    {old_n seq : Str} {newArg : Option Str} {inputs : List Str} {db2 : Doc}
    (h : renameCont db rev old_n seq newArg inputs = .saved db2) :
    ∃ new_n, alookup rev new_n = none ∧
      db2 = renameInSeq db old_n new_n seq := by
  unfold renameCont at h
  cases hn : initStep newArg inputs with
  | none => simp only [hn] at h; exact RenameResult.noConfusion h
  | some pn =>
    obtain ⟨n1, restn⟩ := pn
    simp only [hn] at h
    by_cases h1 : (alookup rev n1).isSome
    · rw [if_pos h1] at h
      cases hp2 : promptStep restn with
      | none => simp only [hp2] at h; exact RenameResult.noConfusion h
      | some pn2 =>
        obtain ⟨n2, restn2⟩ := pn2
        simp only [hp2] at h
        by_cases h2 : (alookup rev n2).isSome
        · rw [if_pos h2] at h
          exact RenameResult.noConfusion h
        · rw [if_neg h2] at h
          simp only [RenameResult.saved.injEq] at h
          exact ⟨n2, Option.not_isSome_iff_eq_none.mp h2, h.symm⟩
    · rw [if_neg h1] at h
      simp only [RenameResult.saved.injEq] at h
      exact ⟨n1, Option.not_isSome_iff_eq_none.mp h1, h.symm⟩

/-- A successful `op_rename` saves `renameInSeq db old_n new_n seq` where
the new name is absent from the reverse cache. -/
theorem op_rename_saved_inv {db : Doc} {oldArg newArg : Option Str}
    {inputs : List Str} {db2 : Doc}
    (h : op_rename db oldArg newArg inputs = .saved db2) :
    ∃ rev old_n new_n seq, build_reverse_cache db = .ok rev ∧
      alookup rev new_n = none ∧
      db2 = renameInSeq db old_n new_n seq := by
  unfold op_rename at h
  cases hb : build_reverse_cache db with
  | error e => simp only [hb] at h; exact RenameResult.noConfusion h
  | ok rev =>
    simp only [hb] at h
    cases hp : initStep oldArg inputs with
    | none => simp only [hp] at h; exact RenameResult.noConfusion h
    | some pr =>
      obtain ⟨o1, rest1⟩ := pr
      simp only [hp] at h
      cases h1 : alookup rev o1 with
      | some seq =>
        simp only [h1] at h
        obtain ⟨new_n, hnone, he⟩ := renameCont_saved_inv h
        exact ⟨rev, o1, new_n, seq, rfl, hnone, he⟩
      | none =>
        simp only [h1] at h
        cases hp2 : promptStep rest1 with
        | none => simp only [hp2] at h; exact RenameResult.noConfusion h
        | some pr2 =>
          obtain ⟨o2, rest2⟩ := pr2
          simp only [hp2] at h
          cases h2 : alookup rev o2 with
          | none => simp only [h2] at h; exact RenameResult.noConfusion h
          | some seq =>
            simp only [h2] at h
            obtain ⟨new_n, hnone, he⟩ := renameCont_saved_inv h
            exact ⟨rev, o2, new_n, seq, rfl, hnone, he⟩

/-- A successful `op_remove` saves `removeStepDoc db n seq b` for the
normalized step and its owning sequence. -/
theorem op_remove_saved_inv {db : Doc} {step : Str} {assume_yes : Bool}
    {inputs : List Str} {db2 : Doc}
    (h : op_remove db step assume_yes inputs = .saved db2) :
    ∃ rev n seq b, build_reverse_cache db = .ok rev ∧
      normalize_step_name step = .ok n ∧
      alookup rev n = some seq ∧ seq ≠ [] ∧
      db2 = removeStepDoc db n seq b := by
  unfold op_remove at h
  cases hb : build_reverse_cache db with
  | error e => simp only [hb] at h; exact RemoveResult.noConfusion h
  | ok rev =>
    simp only [hb] at h
    cases hn : normalize_step_name step with
    | error e => simp only [hn] at h; exact RemoveResult.noConfusion h
    | ok n =>
      simp only [hn] at h
      cases hl : alookup rev n with
      | none => simp only [hl] at h; exact RemoveResult.noConfusion h
      | some seq =>
        simp only [hl] at h
        by_cases hse : seq = []
        · rw [if_pos hse] at h
          exact RemoveResult.noConfusion h
        · rw [if_neg hse] at h
          by_cases hay : assume_yes = true
          · rw [if_pos hay] at h
            simp only at h
            by_cases hok : (!true) = true
            · simp at hok
            · rw [if_neg hok] at h
              by_cases hemp :
                  ((alookup db.map seq).getD []).filter (fun s => s ≠ n) = []
              · rw [if_pos hemp] at h
                rw [if_pos hay] at h
                simp only [RemoveResult.saved.injEq] at h
                exact ⟨rev, n, seq, true, rfl, rfl, hl, hse, h.symm⟩
              · rw [if_neg hemp] at h
                simp only [RemoveResult.saved.injEq] at h
                exact ⟨rev, n, seq, false, rfl, rfl, hl, hse, h.symm⟩
          · rw [if_neg hay] at h
            cases inputs with
            | nil => simp only at h; exact RemoveResult.noConfusion h
            | cons i is2 =>
              simp only at h
              by_cases hok : (!confirmAns i) = true
              · rw [if_pos hok] at h
                exact RemoveResult.noConfusion h
              · rw [if_neg hok] at h
                by_cases hemp :
                    ((alookup db.map seq).getD []).filter (fun s => s ≠ n) = []
                · rw [if_pos hemp] at h
                  rw [if_neg hay] at h
                  cases is2 with
                  | nil => exact RemoveResult.noConfusion h
                  | cons i2 is3 =>
                    simp only [RemoveResult.saved.injEq] at h
                    exact ⟨rev, n, seq, confirmAns i2, rfl, rfl, hl, hse, h.symm⟩
                · rw [if_neg hemp] at h
                  simp only [RemoveResult.saved.injEq] at h
                  exact ⟨rev, n, seq, false, rfl, rfl, hl, hse, h.symm⟩

/-- A successful `op_gc` saves the document with the empty entries
filtered out. -/
theorem op_gc_saved_inv {db : Doc} {db2 : Doc}
    (h : op_gc db = .saved db2) :
    db2 = ⟨db.version, db.map.filter (fun p => p.2 ≠ [])⟩ := by
  unfold op_gc at h
  by_cases hl : (db.map.filter (fun p => p.2 ≠ [])).length = db.map.length
  · rw [if_pos hl] at h
    exact GcResult.noConfusion h
  · rw [if_neg hl] at h
    simp only [GcResult.saved.injEq] at h
    exact h.symm

/-! ## Claim C1 -/

/-- **C1** (amended).  For every document in which no step name appears
under two different sequence keys — and, for `add`, whose sequence keys do
not include the falsy empty string — every successful (saving) run of a
mutating operation (`add`, `reassign`, `rename`, `remove`, `gc`) yields a
document in which still no step name appears under two different sequence
keys: `add` forces a fresh non-conflicting name when the step already
belongs to a different (nonempty) sequence key, `reassign` removes the step
from its old list before inserting it into the new one, and `rename`
refuses a new name that already owns any sequence. -/
theorem c1_unique_owner_preserved :
    (∀ db inputs db2, KeysNodup db → UniqueOwners db →
      [] ∉ db.map.map Prod.fst →
      op_add db inputs = .saved db2 → UniqueOwners db2) ∧
    (∀ db stepArg seqArg inputs db2, KeysNodup db → UniqueOwners db →
      op_reassign db stepArg seqArg inputs = .saved db2 → UniqueOwners db2) ∧
    (∀ db oldArg newArg inputs db2, KeysNodup db → UniqueOwners db →
      op_rename db oldArg newArg inputs = .saved db2 → UniqueOwners db2) ∧
    (∀ db step ay inputs db2, KeysNodup db → UniqueOwners db →
      op_remove db step ay inputs = .saved db2 → UniqueOwners db2) ∧
    (∀ db db2, UniqueOwners db →
      op_gc db = .saved db2 → UniqueOwners db2) := by
  refine ⟨?_, ?_, ?_, ?_, ?_⟩
  · intro db inputs db2 hnd _ hempty h
    obtain ⟨rev, c, seq, hb, hcl, he⟩ := op_add_saved_inv h
    rcases hcl with hnone | hfalsy
    · exact he ▸ unique_addStepToSeq hnd (build_ok_unique hb)
        (build_ok_none hb hnone)
    · obtain ⟨l, hl, _⟩ := build_ok_mem hb hfalsy
      exact absurd (List.mem_map_of_mem Prod.fst hl) hempty
  · intro db stepArg seqArg inputs db2 hnd _ h
    obtain ⟨rev, n, old, nseq, hb, hn, _, he⟩ := op_reassign_saved_inv h
    exact he ▸ unique_moveStep hnd hb hn
  · intro db oldArg newArg inputs db2 hnd _ h
    obtain ⟨rev, old_n, new_n, seq, hb, hnone, he⟩ := op_rename_saved_inv h
    exact he ▸ unique_renameInSeq hnd hb hnone
  · intro db step ay inputs db2 hnd _ h
    obtain ⟨rev, n, seq, b, hb, _, _, _, he⟩ := op_remove_saved_inv h
    exact he ▸ unique_removeStepDoc hnd (build_ok_unique hb)
  · intro db db2 hu h
    exact op_gc_saved_inv h ▸ unique_gcDoc hu

/-- **C1** (counterexample to the claim as stated).  The document
`{"": ["x"]}` satisfies the uniqueness invariant and has no duplicate keys,
yet `add` with step `x` and sequence `UP` saves successfully — the empty
owner string is falsy, so the conflict branch is skipped — and the result
holds `x` under both `""` and `"UP"`. -/
theorem c1_counterexample :
    UniqueOwners ⟨1, [([], ["x".toList])]⟩ ∧
    KeysNodup ⟨1, [([], ["x".toList])]⟩ ∧
    op_add ⟨1, [([], ["x".toList])]⟩ ["x".toList, "UP".toList] =
      .saved ⟨1, [([], ["x".toList]), ("UP".toList, ["x".toList])]⟩ ∧
    ¬ UniqueOwners ⟨1, [([], ["x".toList]), ("UP".toList, ["x".toList])]⟩ :=
  ⟨by decide, by decide, by decide, by decide⟩

/-- **C1** (witness).  Adding `open menu` under `DOWN,DOWN` to the empty
document preserves the invariant. -/
theorem c1_witness :
    UniqueOwners ⟨1, [("DOWN,DOWN".toList, ["open menu".toList])]⟩ :=
  c1_unique_owner_preserved.1 ⟨1, []⟩
    ["open menu".toList, "DOWN, DOWN".toList]
    ⟨1, [("DOWN,DOWN".toList, ["open menu".toList])]⟩
    (by decide) (by decide) (by decide) (by decide)

/-! ## Claim C2 -/

/-- **C2** (amended).  A document with some step name under two different
sequence keys makes `build_reverse_cache` fail, and each of the four
step-mutating operations (`add`, `reassign`, `rename`, `remove`) builds the
reverse index before its own logic, so each of them propagates that failure
as `InconsistentStore` and returns without saving anything.  (`list`,
`lint` and `gc` do not build the reverse index; see the counterexample,
where `gc` even writes an inconsistent document.) -/
theorem c2_inconsistent_store_rejection :
    (∀ db, ¬ UniqueOwners db → ∃ e, build_reverse_cache db = .error e) ∧
    (∀ db e inputs, build_reverse_cache db = .error e →
      op_add db inputs = .inconsistent e) ∧
    (∀ db e stepArg seqArg inputs, build_reverse_cache db = .error e →
      op_reassign db stepArg seqArg inputs = .inconsistent e) ∧
    (∀ db e oldArg newArg inputs, build_reverse_cache db = .error e →
      op_rename db oldArg newArg inputs = .inconsistent e) ∧
    (∀ db e step ay inputs, build_reverse_cache db = .error e →
      op_remove db step ay inputs = .inconsistent e) := by
  refine ⟨?_, ?_, ?_, ?_, ?_⟩
  · intro db hnu
    cases hb : build_reverse_cache db with
    | error e => exact ⟨e, rfl⟩
    | ok rev => exact absurd (build_ok_unique hb) hnu
  · intro db e inputs hb
    unfold op_add
    simp only [hb]
  · intro db e stepArg seqArg inputs hb
    unfold op_reassign
    simp only [hb]
  · intro db e oldArg newArg inputs hb
    unfold op_rename
    simp only [hb]
  · intro db e step ay inputs hb
    unfold op_remove
    simp only [hb]

/-- **C2** (counterexample to the claim as stated).  On a document holding
`a` under both `UP` and `DOWN` (plus an empty `LEFT` entry), `op_gc` does
not fail with `InconsistentStore`: it removes the empty entry and writes
the still-inconsistent document to storage. -/
theorem c2_counterexample :
    ¬ UniqueOwners ⟨1, [("UP".toList, ["a".toList]),
      ("DOWN".toList, ["a".toList]), ("LEFT".toList, [])]⟩ ∧
    op_gc ⟨1, [("UP".toList, ["a".toList]),
      ("DOWN".toList, ["a".toList]), ("LEFT".toList, [])]⟩ =
      .saved ⟨1, [("UP".toList, ["a".toList]), ("DOWN".toList, ["a".toList])]⟩ :=
  ⟨by decide, by decide⟩

/-- **C2** (witness).  On the same inconsistent document, `op_add` fails
with the `InconsistentStore` error naming the step and both keys, before
reading any input. -/
theorem c2_witness :
    op_add ⟨1, [("UP".toList, ["a".toList]), ("DOWN".toList, ["a".toList]),
      ("LEFT".toList, [])]⟩ [] =
      .inconsistent (.inconsistent "a".toList "UP".toList "DOWN".toList) :=
  c2_inconsistent_store_rejection.2.1 _ _ [] (by decide)

/-! ## Claim C3 -/

/-- The storage path is untouched by every pre-replace state. -/
theorem preReplaceStates_path {fs : FS} {data : Str} {s : FS}
    (hs : s ∈ preReplaceStates fs data) : s.path = fs.path := by
  simp only [preReplaceStates, List.mem_cons, List.mem_map] at hs
  rcases hs with rfl | rfl | ⟨k, _, rfl⟩
  · rfl
  · rfl
  · rfl

/-- **C3**.  If persistence fails or is interrupted at any point before the
final atomic replace (temporary-file creation, serialization, or the write
itself), the storage path still holds the previous complete document
unchanged; and over the whole of `atomic_save` a reader only ever observes
either the prior contents or the complete new contents, never a mix. -/
theorem c3_atomic_save_crash_safe :
    (∀ (fs : FS) (data : Str), ∀ s ∈ preReplaceStates fs data,
      s.path = fs.path) ∧
    (∀ (fs : FS) (data : Str), ∀ s ∈ atomic_save_states fs data,
      s.path = fs.path ∨ s.path = some data) := by
  constructor
  · intro fs data s hs
    exact preReplaceStates_path hs
  · intro fs data s hs
    simp only [atomic_save_states, List.mem_append, List.mem_singleton] at hs
    rcases hs with hpre | rfl
    · exact Or.inl (preReplaceStates_path hpre)
    · exact Or.inr rfl

/-- **C3** (witness).  A crash just after the temporary file was created,
while saving new contents over a path holding `old`, leaves `old` at the
path. -/
theorem c3_witness :
    (fsAfterMkstemp ⟨some "old".toList, none⟩).path = some "old".toList :=
  c3_atomic_save_crash_safe.1 ⟨some "old".toList, none⟩ "new".toList
    (fsAfterMkstemp ⟨some "old".toList, none⟩) (by simp [preReplaceStates])

/-! ## Claim C4 -/

/-- An uppercase ASCII letter is also a "forbidden" character for
`normalize_step_name`: it is neither lowercase, nor a digit, nor
whitespace. -/
theorem isUpper_forbidden {c : Char} (h : c.isUpper = true) :
    (!(c.isLower || c.isDigit || isSpaceChar c)) = true := by
  simp only [Char.isUpper, Bool.and_eq_true, decide_eq_true_eq] at h
  obtain ⟨h1, h2⟩ := h
  have hn1 : 65 ≤ c.val.toNat := h1
  have hn2 : c.val.toNat ≤ 90 := h2
  have hl : c.isLower = false := by
    simp only [Char.isLower, Bool.and_eq_false_iff, decide_eq_false_iff_not]
    refine Or.inl fun hx => ?_
    have hx2 : 97 ≤ c.val.toNat := hx
    omega
  have hd : c.isDigit = false := by
    simp only [Char.isDigit, Bool.and_eq_false_iff, decide_eq_false_iff_not]
    refine Or.inr fun hx => ?_
    have hx2 : c.val.toNat ≤ 57 := hx
    omega
  have hs : isSpaceChar c = false := by
    simp only [isSpaceChar, Bool.or_eq_false_iff, decide_eq_false_iff_not]
    refine ⟨⟨⟨⟨⟨?_, ?_⟩, ?_⟩, ?_⟩, ?_⟩, ?_⟩ <;>
      exact fun e => by rw [e] at hn1; exact absurd hn1 (by decide)
  simp [hl, hd, hs]

/-- Every character of the input that is not split away ends up in some
piece of `splitPred`. -/
theorem splitPred_mem {p : Char → Bool} {l : Str} {c : Char}
    (hc : c ∈ l) (hp : p c = false) : ∃ w ∈ splitPred p l, c ∈ w := by
  induction l with
  | nil => simp at hc
  | cons a cs ih =>
    rcases List.mem_cons.mp hc with rfl | hmem
    · cases hsp : splitPred p cs with
      | nil => exact ⟨[c], by simp [splitPred, hp, hsp], by simp⟩
      | cons w ws => exact ⟨c :: w, by simp [splitPred, hp, hsp], by simp⟩
    · obtain ⟨w, hw, hcw⟩ := ih hmem
      by_cases hpa : p a = true
      · exact ⟨w, by simp [splitPred, hpa, hw], hcw⟩
      · cases hsp : splitPred p cs with
        | nil => rw [hsp] at hw; simp at hw
        | cons w0 ws =>
          rw [hsp] at hw
          have hred : splitPred p (a :: cs) = (a :: w0) :: ws := by
            simp [splitPred, hpa, hsp]
          rcases List.mem_cons.mp hw with rfl | hw2
          · exact ⟨a :: w, by rw [hred]; exact List.mem_cons_self _ _,
              List.mem_cons_of_mem _ hcw⟩
          · exact ⟨w, by rw [hred]; exact List.mem_cons_of_mem _ hw2, hcw⟩

/-- A character of any piece survives into the joined string. -/
theorem joinWith_mem {sep : Char} {ws : List Str} {w : Str} {c : Char}
    (hw : w ∈ ws) (hc : c ∈ w) : c ∈ joinWith sep ws := by
  induction ws with
  | nil => simp at hw
  | cons w0 rest ih =>
    rcases List.mem_cons.mp hw with rfl | hw2
    · cases rest with
      | nil => simpa [joinWith] using hc
      | cons r rs => simp [joinWith, hc]
    · cases rest with
      | nil => simp at hw2
      | cons r rs =>
        simp only [joinWith, List.mem_append, List.mem_cons]
        exact Or.inr (Or.inr (ih hw2))

/-- Every non-whitespace character of the raw input survives whitespace
collapsing. -/
theorem collapse_mem {raw : Str} {c : Char} (hc : c ∈ raw)
    (hsp : isSpaceChar c = false) : c ∈ joinWith ' ' (pyWords raw) := by
  obtain ⟨w, hw, hcw⟩ := splitPred_mem hc hsp
  refine joinWith_mem ?_ hcw
  simp only [pyWords, List.mem_filter]
  exact ⟨hw, by simpa using List.ne_nil_of_mem hcw⟩

/-- A string accepted by the step-name regex consists of word characters
and spaces only. -/
theorem stepNameRe_chars {s : Str} (h : stepNameRe s = true) {c : Char}
    (hc : c ∈ s) (hne : c ≠ ' ') : isWordChar c = true := by
  obtain ⟨w, hw, hcw⟩ :=
    @splitPred_mem (fun c => decide (c = ' ')) s c hc (decide_eq_false hne)
  unfold stepNameRe at h
  rw [List.all_eq_true] at h
  have h2 := h w hw
  simp only [Bool.and_eq_true, List.all_eq_true, decide_eq_true_eq] at h2
  exact h2.2 c hcw

/-- **C4** (amended).  A raw input containing at least one uppercase ASCII
letter and otherwise only letters, digits and whitespace is rejected by
`normalize_step_name` with the *combined* "use lowercase only and remove
punctuation" message: an uppercase letter also counts as a forbidden
character, so the dedicated "use lowercase only" message is unreachable
for every input.  The combined message is still distinct from the
punctuation-only and generic messages. -/
theorem c4_uppercase_error_classification :
    (∀ raw : Str, raw.any (fun c => c.isUpper) = true →
      (∀ c ∈ raw, c.isAlpha = true ∨ c.isDigit = true ∨ isSpaceChar c = true) →
      normalize_step_name raw = .error .upperAndPunct) ∧
    (∀ raw : Str, normalize_step_name raw ≠ .error .upperOnly) ∧
    Err.upperAndPunct ≠ Err.punctOnly ∧
    Err.upperAndPunct ≠ Err.invalidFormat := by
  have hForced : ∀ raw : Str, raw.any (fun c => c.isUpper) = true →
      raw.any (fun c => !(c.isLower || c.isDigit || isSpaceChar c)) = true := by
    intro raw h
    obtain ⟨u, hmem, hup⟩ := List.any_eq_true.mp h
    exact List.any_eq_true.mpr ⟨u, hmem, isUpper_forbidden hup⟩
  refine ⟨?_, ?_, by decide, by decide⟩
  · intro raw hup hchars
    obtain ⟨u, hmem, hu⟩ := List.any_eq_true.mp hup
    have huf := isUpper_forbidden hu
    have huf2 : (u.isLower || u.isDigit || isSpaceChar u) = false := by
      simpa using huf
    have husp : isSpaceChar u = false := by
      rcases Bool.or_eq_false_iff.mp huf2 with ⟨_, h2⟩
      exact h2
    have hune : u ≠ ' ' := fun e => by rw [e] at husp; simp [isSpaceChar] at husp
    have huw : isWordChar u = false := by
      rcases Bool.or_eq_false_iff.mp huf2 with ⟨h1, _⟩
      rcases Bool.or_eq_false_iff.mp h1 with ⟨hl, hd⟩
      simp [isWordChar, hl, hd]
    have hus : u ∈ joinWith ' ' (pyWords raw) := collapse_mem hmem husp
    have hne : ¬ (joinWith ' ' (pyWords raw) = []) := by
      intro e; rw [e] at hus; simp at hus
    have hre : ¬ (stepNameRe (joinWith ' ' (pyWords raw)) = true) := by
      intro hr
      rw [stepNameRe_chars hr hus hune] at huw
      exact Bool.noConfusion huw
    simp only [normalize_step_name]
    rw [if_neg hne, if_neg hre, if_pos (by
      rw [hup, hForced raw hup]; rfl)]
  · intro raw
    simp only [normalize_step_name]
    by_cases h1 : joinWith ' ' (pyWords raw) = []
    · rw [if_pos h1]; simp
    · rw [if_neg h1]
      by_cases h2 : stepNameRe (joinWith ' ' (pyWords raw)) = true
      · rw [if_pos h2]; simp
      · rw [if_neg h2]
        by_cases h3 : raw.any (fun c => c.isUpper) = true
        · rw [if_pos (by rw [h3, hForced raw h3]; rfl)]
          simp
        · have h3f : (raw.any fun c => c.isUpper) = false := by
            revert h3
            cases raw.any fun c => c.isUpper <;> simp
          rw [if_neg (by simp [h3f])]
          rw [if_neg h3]
          by_cases h4 :
              raw.any (fun c => !(c.isLower || c.isDigit || isSpaceChar c)) = true
          · rw [if_pos h4]; simp
          · rw [if_neg h4]; simp

/-- **C4** (counterexample to the claim as stated).  The raw input `"A"`
contains an uppercase letter and no punctuation, yet `normalize_step_name`
rejects it with the combined uppercase-and-punctuation message, not a
dedicated "contains uppercase" one. -/
theorem c4_counterexample :
    normalize_step_name "A".toList = .error .upperAndPunct ∧
    Err.upperAndPunct ≠ Err.upperOnly :=
  ⟨by decide, by decide⟩

/-- **C4** (witness).  `"Hello world"` (uppercase letter, otherwise only
letters and whitespace) is rejected with the combined message. -/
theorem c4_witness :
    normalize_step_name "Hello world".toList = .error .upperAndPunct :=
  c4_uppercase_error_classification.1 "Hello world".toList (by decide)
    (by decide)

/-! ## Claim C10 -/

/-- **C10**.  For every document in which each step name is owned by at
most one sequence key — duplicates *inside* a single list are allowed —
`build_reverse_cache` succeeds, and it maps every step of every list to
that list's key: the integrity check only rejects a step found under two
*different* sequence keys. -/
theorem c10_duplicates_in_one_list_pass :
    ∀ db : Doc, UniqueOwners db →
      ∃ rev, build_reverse_cache db = .ok rev ∧
        ∀ k l s, (k, l) ∈ db.map → s ∈ l → alookup rev s = some k := by
  intro db hu
  obtain ⟨rev, hb⟩ := build_ok_of_unique hu
  exact ⟨rev, hb, fun k l s hkl hs => build_ok_lookup hb hkl hs⟩

/-- **C10** (witness).  On `{"UP": ["a", "a"]}` — the step `a` occurring
twice inside one list, under no other key — the build succeeds and maps
`a` to `UP`. -/
theorem c10_witness :
    ∃ rev, build_reverse_cache ⟨1, [("UP".toList, ["a".toList, "a".toList])]⟩ =
        .ok rev ∧ alookup rev "a".toList = some "UP".toList := by
  obtain ⟨rev, hb, hmap⟩ :=
    c10_duplicates_in_one_list_pass
      ⟨1, [("UP".toList, ["a".toList, "a".toList])]⟩ (by decide)
  exact ⟨rev, hb, hmap "UP".toList ["a".toList, "a".toList] "a".toList
    (by simp) (by simp)⟩

/-! ## Claim C6 -/

/-- Splitting a pure separator run prepends only empty pieces. -/
theorem splitPred_sep_append {p : Char → Bool} {s : Str}
    (hs : s.all p = true) (r : Str) :
    splitPred p (s ++ r) = List.replicate s.length [] ++ splitPred p r := by
  induction s with
  | nil => simp
  | cons c cs ih =>
    simp only [List.all_cons, Bool.and_eq_true] at hs
    simp [splitPred, hs.1, ih hs.2, List.replicate_succ]

/-- Splitting a pure separator run yields only empty pieces. -/
theorem splitPred_sep {p : Char → Bool} {s : Str} (hs : s.all p = true) :
    ∃ tl, splitPred p s = [] :: tl ∧ ∀ w ∈ tl, w = ([] : Str) := by
  have h := splitPred_sep_append hs []
  rw [List.append_nil] at h
  cases s with
  | nil => exact ⟨[], by simp [splitPred], by simp⟩
  | cons c cs =>
    rw [h]
    simp only [List.length_cons, List.replicate_succ, List.cons_append,
      List.cons.injEq, true_and]
    refine ⟨_, rfl, ?_⟩
    intro w hw
    rcases List.mem_append.mp hw with h1 | h1
    · exact List.eq_of_mem_replicate h1
    · simpa [splitPred] using h1

/-- One step of `splitPred` at a non-separator character. -/
theorem splitPred_cons_false {p : Char → Bool} {c : Char} (hc : p c = false)
    (cs : Str) :
    splitPred p (c :: cs) =
      match splitPred p cs with
      | [] => [[c]]
      | w :: ws => (c :: w) :: ws := by
  simp [splitPred, hc]

/-- A maximal non-separator prefix is glued onto the head piece of the
remainder. -/
theorem splitPred_tok_append {p : Char → Bool} {tok : Str} {rest : Str}
    {h0 : Str} {tl : List Str} (htok : tok ≠ [])
    (hnp : tok.all (fun c => !p c) = true)
    (hrest : splitPred p rest = h0 :: tl) :
    splitPred p (tok ++ rest) = (tok ++ h0) :: tl := by
  induction tok with
  | nil => exact absurd rfl htok
  | cons c cs ih =>
    simp only [List.all_cons, Bool.and_eq_true, Bool.not_eq_true'] at hnp
    cases cs with
    | nil =>
      rw [List.cons_append, List.nil_append, splitPred_cons_false hnp.1, hrest]
      rfl
    | cons d ds =>
      have h2 := ih (by simp) hnp.2
      rw [List.cons_append, splitPred_cons_false hnp.1, h2]
      rfl

/-- All empty pieces are filtered away. -/
theorem filter_empty_pieces {tl : List Str} (h : ∀ w ∈ tl, w = ([] : Str)) :
    tl.filter (fun w => w ≠ []) = [] := by
  induction tl with
  | nil => rfl
  | cons w ws ih =>
    have hw := h w (List.mem_cons_self _ _)
    subst hw
    simpa using ih fun w2 hw2 => h w2 (List.mem_cons_of_mem _ hw2)

/-- `raw` is a rendering of the token list `toks` using a (nonempty)
separator run after each token except possibly the last, which may end with
an optional trailing run. -/
inductive RendersCore : List Str → Str → Prop where
  /-- The last token, followed by an optional trailing separator run. -/
  | last (t trail : Str) (htr : trail.all isSepChar = true) :
      RendersCore [t] (t ++ trail)
  /-- A token followed by a nonempty separator run and the rest. -/
  | cons (t s : Str) (ts : List Str) (rest : Str) (hs : s ≠ [])
      (hsep : s.all isSepChar = true) (h : RendersCore ts rest) :
      RendersCore (t :: ts) (t ++ (s ++ rest))

/-- `raw` renders `toks`: an optional leading separator run, then the
interleaving. -/
def Renders (toks : List Str) (raw : Str) : Prop :=
  ∃ lead rest, lead.all isSepChar = true ∧ raw = lead ++ rest ∧
    RendersCore toks rest

/-- The pieces recovered from a rendering are exactly the tokens. -/
theorem rendersCore_tokens {toks : List Str} {rest : Str}
    (h : RendersCore toks rest)
    (htoks : ∀ t ∈ toks, t ≠ [] ∧ t.all (fun c => !isSepChar c) = true) :
    (splitPred isSepChar rest).filter (fun w => w ≠ []) = toks := by
  induction h with
  | last t trail htr =>
    obtain ⟨ht1, ht2⟩ := htoks t (List.mem_cons_self _ _)
    obtain ⟨tl, htl, htlw⟩ := splitPred_sep htr
    rw [splitPred_tok_append ht1 ht2 htl, List.append_nil]
    rw [List.filter_cons, if_pos (by simpa using ht1)]
    rw [filter_empty_pieces htlw]
  | cons t s ts rest hs hsep hrc ih =>
    obtain ⟨ht1, ht2⟩ := htoks t (List.mem_cons_self _ _)
    have hrest := splitPred_sep_append hsep rest
    cases hlen : s.length with
    | zero => exact absurd (List.length_eq_zero.mp hlen) hs
    | succ n =>
      rw [hlen, List.replicate_succ, List.cons_append] at hrest
      rw [splitPred_tok_append ht1 ht2 hrest, List.append_nil]
      rw [List.filter_cons, if_pos (by simpa using ht1)]
      rw [List.filter_append]
      rw [filter_empty_pieces (fun w hw => List.eq_of_mem_replicate hw)]
      rw [List.nil_append]
      rw [ih fun t2 ht => htoks t2 (List.mem_cons_of_mem _ ht)]

/-- The token list extracted from any rendering of `toks` is
`toks.map pyUpper`. -/
theorem renders_seqTokens {toks : List Str} {raw : Str}
    (h : Renders toks raw)
    (htoks : ∀ t ∈ toks, t ≠ [] ∧ t.all (fun c => !isSepChar c) = true) :
    seqTokens raw = toks.map pyUpper := by
  obtain ⟨lead, rest, hlead, rfl, hcore⟩ := h
  unfold seqTokens
  rw [splitPred_sep_append hlead rest, List.filter_append,
    filter_empty_pieces (fun w hw => List.eq_of_mem_replicate hw),
    List.nil_append, rendersCore_tokens hcore htoks]

/-- **C6**.  For every pair of raw sequence inputs that contain the same
tokens in the same order and differ only in their mix of comma and
whitespace separators, `canonicalize_sequence` returns the same result. -/
theorem c6_canonicalize_separator_invariant :
    ∀ (toks : List Str) (r1 r2 : Str),
      (∀ t ∈ toks, t ≠ [] ∧ t.all (fun c => !isSepChar c) = true) →
      Renders toks r1 → Renders toks r2 →
      canonicalize_sequence r1 = canonicalize_sequence r2 := by
  intro toks r1 r2 htoks h1 h2
  unfold canonicalize_sequence
  rw [renders_seqTokens h1 htoks, renders_seqTokens h2 htoks]

/-- **C6** (witness).  `"down, down"` and `"down down"` canonicalize to the
same key, namely `DOWN,DOWN`. -/
theorem c6_witness :
    canonicalize_sequence "down, down".toList =
      canonicalize_sequence "down down".toList ∧
    canonicalize_sequence "down, down".toList = .ok "DOWN,DOWN".toList := by
  constructor
  · exact c6_canonicalize_separator_invariant
      ["down".toList, "down".toList] "down, down".toList "down down".toList
      (by decide)
      ⟨[], "down".toList ++ (", ".toList ++ ("down".toList ++ [])),
        by decide, by decide,
        .cons "down".toList ", ".toList ["down".toList]
          ("down".toList ++ []) (by decide) (by decide)
          (.last "down".toList [] (by decide))⟩
      ⟨[], "down".toList ++ (" ".toList ++ ("down".toList ++ [])),
        by decide, by decide,
        .cons "down".toList " ".toList ["down".toList]
          ("down".toList ++ []) (by decide) (by decide)
          (.last "down".toList [] (by decide))⟩
  · decide

/-! ## Claim C7 -/

/-- **C7**.  For every document where step `s` belongs to sequence `A`:
`reassign(s, B)` with canonical `B` equal to `A` is a no-op and writes
nothing; with `B` different from `A` it saves `moveStep db s A B`, in which
`s` has been removed from `A`'s list — the key `A` itself remaining present
even when its list becomes empty — and inserted into `B`'s re-sorted list,
`B`'s entry being created if absent. -/
theorem c7_reassign_functional :
    ∀ (db : Doc) (rev : List (Str × Str)) (sRaw s bRaw B A : Str),
      KeysNodup db →
      build_reverse_cache db = .ok rev →
      normalize_step_name sRaw = .ok s →
      alookup rev s = some A →
      canonicalize_sequence bRaw = .ok B →
      (A = B → op_reassign db (some sRaw) (some bRaw) [] = .noChange) ∧
      (A ≠ B →
        op_reassign db (some sRaw) (some bRaw) [] =
          .saved (moveStep db s A B) ∧
        alookup (moveStep db s A B).map A =
          some (((alookup db.map A).getD []).filter (fun t => t ≠ s)) ∧
        s ∉ ((alookup db.map A).getD []).filter (fun t => t ≠ s) ∧
        alookup (moveStep db s A B).map B =
          some (sortSteps (((alookup db.map B).getD []) ++ [s])) ∧
        s ∈ sortSteps (((alookup db.map B).getD []) ++ [s])) := by
  intro db rev sRaw s bRaw B A hnd hb hnorm hs hcanon
  have hsne : sRaw ≠ [] := by
    intro e
    rw [e] at hnorm
    rw [show normalize_step_name [] = .error .emptyStep from rfl] at hnorm
    exact Except.noConfusion hnorm
  have hbne : bRaw ≠ [] := by
    intro e
    rw [e] at hcanon
    rw [show canonicalize_sequence [] = .error .emptySeq from rfl] at hcanon
    exact Except.noConfusion hcanon
  have hrun : op_reassign db (some sRaw) (some bRaw) [] =
      if A = B then .noChange else .saved (moveStep db s A B) := by
    unfold op_reassign
    simp only [hb]
    simp only [initStep, if_neg hsne, hnorm]
    simp only [hs]
    unfold reassignCont
    simp only [initSeq, if_neg hbne, hcanon]
  constructor
  · intro hAB
    rw [hrun, if_pos hAB]
  · intro hAB
    have hBA : B ≠ A := fun e => hAB e.symm
    refine ⟨by rw [hrun, if_neg hAB], ?_, ?_, ?_, ?_⟩
    · simp only [moveStep]
      rw [alookup_setKey_ne _ _ hAB, alookup_setKey_self]
    · simp [List.mem_filter]
    · simp only [moveStep]
      have hBm : alookup (setKey db.map A
          (((alookup db.map A).getD []).filter (fun t => t ≠ s))) B =
          alookup db.map B := alookup_setKey_ne _ _ hBA
      rw [alookup_setKey_self, hBm]
      have hsnotin : s ∉ (alookup db.map B).getD [] := by
        intro hmem
        have h1 := build_ok_lookup hb (alookup_getD_mem hmem) hmem
        rw [hs] at h1
        exact hAB (Option.some.inj h1)
      rw [if_neg hsnotin]
    · exact mem_sortSteps.mpr (List.mem_append.mpr (Or.inr (by simp)))

/-- **C7** (witness).  Reassigning `open the menu` from `DOWN,DOWN` to `UP`
saves the moved document: `DOWN,DOWN` keeps its (now empty) entry and `UP`
holds the step. -/
theorem c7_witness :
    op_reassign ⟨1, [("DOWN,DOWN".toList, ["open the menu".toList])]⟩
        (some "open the menu".toList) (some "UP".toList) [] =
      .saved (moveStep ⟨1, [("DOWN,DOWN".toList, ["open the menu".toList])]⟩
        "open the menu".toList "DOWN,DOWN".toList "UP".toList) ∧
    alookup (moveStep ⟨1, [("DOWN,DOWN".toList, ["open the menu".toList])]⟩
        "open the menu".toList "DOWN,DOWN".toList "UP".toList).map
      "DOWN,DOWN".toList = some [] := by
  obtain ⟨hnoop, hmove⟩ :=
    c7_reassign_functional ⟨1, [("DOWN,DOWN".toList, ["open the menu".toList])]⟩
      [("open the menu".toList, "DOWN,DOWN".toList)]
      "open the menu".toList "open the menu".toList
      "UP".toList "UP".toList "DOWN,DOWN".toList
      (by decide) (by decide) (by decide) (by decide) (by decide)
  obtain ⟨h1, h2, _, _, _⟩ := hmove (by decide)
  exact ⟨h1, by rw [h2]; decide⟩

/-! ## Claim C8 -/

theorem alookup_delKey_self {β : Type} {m : List (Str × β)} {k : Str}
    (hnd : (m.map Prod.fst).Nodup) : alookup (delKey m k) k = none := by
  induction m with
  | nil => rfl
  | cons p rest ih =>
    obtain ⟨ka, va⟩ := p
    simp only [List.map_cons, List.nodup_cons] at hnd
    by_cases h1 : ka = k
    · subst h1
      rw [show delKey ((ka, va) :: rest) ka = rest from by simp [delKey]]
      cases hl : alookup rest ka with
      | none => rfl
      | some v =>
        exact absurd (List.mem_map_of_mem Prod.fst (alookup_mem hl)) hnd.1
    · rw [show delKey ((ka, va) :: rest) k = (ka, va) :: delKey rest k from by
        simp [delKey, h1]]
      simp only [alookup, if_neg h1]
      exact ih hnd.2

/-- The choice of `dropEmpty` is irrelevant when the filtered list is
nonempty. -/
theorem removeStepDoc_b_irrelevant {db : Doc} {n seq : Str}
    (hne : ((alookup db.map seq).getD []).filter (fun t => t ≠ n) ≠ [])
    (b b2 : Bool) : removeStepDoc db n seq b = removeStepDoc db n seq b2 := by
  simp only [removeStepDoc]
  have hd : decide
      (((alookup db.map seq).getD []).filter (fun t => t ≠ n) = []) = false :=
    decide_eq_false hne
  rw [if_neg (by rw [hd]; simp), if_neg (by rw [hd]; simp)]

/-- **C8**.  For every document where step `n` exists under a (nonempty)
sequence key and the first deletion confirmation is given (or `--yes`
holds), `remove` deletes every occurrence of `n` from its owning list and
always saves, regardless of the second confirmation about the now-empty
entry: under `--yes` the run consumes no input and auto-drops the emptied
entry; interactively, a declined second confirmation still writes the
document with the empty list retained, an accepted one drops the entry. -/
theorem c8_remove_always_persists :
    ∀ (db : Doc) (rev : List (Str × Str)) (stepRaw n seq : Str),
      KeysNodup db →
      build_reverse_cache db = .ok rev →
      normalize_step_name stepRaw = .ok n →
      alookup rev n = some seq → seq ≠ [] →
      (op_remove db stepRaw true [] = .saved (removeStepDoc db n seq true)) ∧
      (∀ i1 i2, confirmAns i1 = true →
        op_remove db stepRaw false [i1, i2] =
          .saved (removeStepDoc db n seq (confirmAns i2))) ∧
      (n ∉ ((alookup db.map seq).getD []).filter (fun t => t ≠ n)) ∧
      (∀ b : Bool, ((alookup db.map seq).getD []).filter (fun t => t ≠ n) ≠ [] →
        alookup (removeStepDoc db n seq b).map seq =
          some (((alookup db.map seq).getD []).filter (fun t => t ≠ n))) ∧
      (((alookup db.map seq).getD []).filter (fun t => t ≠ n) = [] →
        alookup (removeStepDoc db n seq false).map seq = some []) ∧
      (((alookup db.map seq).getD []).filter (fun t => t ≠ n) = [] →
        alookup (removeStepDoc db n seq true).map seq = none) := by
  intro db rev stepRaw n seq hnd hb hnorm hs hseqne
  refine ⟨?_, ?_, by simp [List.mem_filter], ?_, ?_, ?_⟩
  · unfold op_remove
    simp only [hb, hnorm, hs]
    rw [if_neg hseqne]
    show (if ((alookup db.map seq).getD []).filter (fun t => t ≠ n) = []
          then RemoveResult.saved (removeStepDoc db n seq true)
          else RemoveResult.saved (removeStepDoc db n seq false)) =
      RemoveResult.saved (removeStepDoc db n seq true)
    by_cases hemp :
        ((alookup db.map seq).getD []).filter (fun t => t ≠ n) = []
    · rw [if_pos hemp]
    · rw [if_neg hemp, removeStepDoc_b_irrelevant hemp false true]
  · intro i1 i2 hc1
    unfold op_remove
    simp only [hb, hnorm, hs]
    rw [if_neg hseqne]
    show (if (!confirmAns i1) = true then RemoveResult.cancelled
          else if ((alookup db.map seq).getD []).filter (fun t => t ≠ n) = []
          then RemoveResult.saved (removeStepDoc db n seq (confirmAns i2))
          else RemoveResult.saved (removeStepDoc db n seq false)) =
      RemoveResult.saved (removeStepDoc db n seq (confirmAns i2))
    rw [if_neg (by rw [hc1]; simp)]
    by_cases hemp :
        ((alookup db.map seq).getD []).filter (fun t => t ≠ n) = []
    · rw [if_pos hemp]
    · rw [if_neg hemp, removeStepDoc_b_irrelevant hemp false (confirmAns i2)]
  · intro b hne
    simp only [removeStepDoc]
    have hd : decide
        (((alookup db.map seq).getD []).filter (fun t => t ≠ n) = []) = false :=
      decide_eq_false hne
    rw [if_neg (by rw [hd]; simp), alookup_setKey_self]
  · intro hemp
    simp only [removeStepDoc]
    rw [if_neg (by simp), alookup_setKey_self, hemp]
  · intro hemp
    simp only [removeStepDoc]
    have hd : decide
        (((alookup db.map seq).getD []).filter (fun t => t ≠ n) = []) = true :=
      decide_eq_true hemp
    rw [if_pos (by rw [hd]; rfl)]
    exact alookup_delKey_self hnd

/-- **C8** (witness).  On `{"UP": ["a"]}`, `rm a` with first confirmation
`y` and second `n` saves the document with the emptied `UP` entry
retained; the same run under `--yes` drops the entry. -/
theorem c8_witness :
    op_remove ⟨1, [("UP".toList, ["a".toList])]⟩ "a".toList false
        ["y".toList, "n".toList] =
      .saved (removeStepDoc ⟨1, [("UP".toList, ["a".toList])]⟩ "a".toList
        "UP".toList (confirmAns "n".toList)) ∧
    alookup (removeStepDoc ⟨1, [("UP".toList, ["a".toList])]⟩ "a".toList
      "UP".toList false).map "UP".toList = some [] := by
  obtain ⟨h1, h2, h3, h4, h5, h6⟩ :=
    c8_remove_always_persists ⟨1, [("UP".toList, ["a".toList])]⟩
      [("a".toList, "UP".toList)] "a".toList "a".toList "UP".toList
      (by decide) (by decide) (by decide) (by decide) (by decide)
  exact ⟨h2 "y".toList "n".toList (by decide), h5 (by decide)⟩

/-! ## Claim C5: helper lemmas -/

/-- A step occurring in no list of the document is absent from its built
reverse cache. -/
theorem alookup_none_of_absent {db : Doc} {rev : List (Str × Str)} {s : Str}
    (hb : build_reverse_cache db = .ok rev)
    (habs : ∀ k l, (k, l) ∈ db.map → s ∉ l) : alookup rev s = none := by
  cases hl : alookup rev s with
  | none => rfl
  | some k =>
    obtain ⟨l, hm, hsl⟩ := build_ok_mem hb hl
    exact absurd hsl (habs k l hm)

theorem mem_delKey_ne {β : Type} {m : List (Str × β)} {k : Str}
    {a : Str} {b : β} (hnd : (m.map Prod.fst).Nodup)
    (h : (a, b) ∈ delKey m k) : (a, b) ∈ m ∧ a ≠ k := by
  induction m with
  | nil => simp [delKey] at h
  | cons p rest ih =>
    obtain ⟨ka, va⟩ := p
    simp only [List.map_cons, List.nodup_cons] at hnd
    by_cases h1 : ka = k
    · subst h1
      rw [show delKey ((ka, va) :: rest) ka = rest from by simp [delKey]] at h
      refine ⟨List.mem_cons_of_mem _ h, ?_⟩
      intro e
      subst e
      exact hnd.1 (List.mem_map_of_mem Prod.fst h)
    · rw [show delKey ((ka, va) :: rest) k = (ka, va) :: delKey rest k from by
        simp [delKey, h1]] at h
      rcases List.mem_cons.mp h with heq | hmem
      · injection heq with e1 e2
        subst e1; subst e2
        exact ⟨List.mem_cons_self _ _, h1⟩
      · obtain ⟨hm, hne⟩ := ih hnd.2 hmem
        exact ⟨List.mem_cons_of_mem _ hm, hne⟩

/-- The inserted step is present in the target sequence's list of
`addStepToSeq`. -/
theorem addStepToSeq_present {db : Doc} (c seq : Str) :
    ∃ L, alookup (addStepToSeq db c seq).map seq = some L ∧ c ∈ L := by
  simp only [addStepToSeq]
  refine ⟨_, alookup_setKey_self _ _ _, ?_⟩
  by_cases hc : c ∈ (alookup db.map seq).getD []
  · rw [if_pos hc]; exact hc
  · rw [if_neg hc]
    exact mem_sortSteps.mpr (List.mem_append.mpr (Or.inr (by simp)))

/-- The moved step is present in the destination list of `moveStep`. -/
theorem moveStep_present {db : Doc} (n old nseq : Str) :
    ∃ L, alookup (moveStep db n old nseq).map nseq = some L ∧ n ∈ L := by
  simp only [moveStep]
  refine ⟨_, alookup_setKey_self _ _ _, ?_⟩
  set m1 := setKey db.map old
    (((alookup db.map old).getD []).filter (fun s => s ≠ n)) with hm1
  by_cases hc : n ∈ (alookup m1 nseq).getD []
  · rw [if_pos hc]; exact hc
  · rw [if_neg hc]
    exact mem_sortSteps.mpr (List.mem_append.mpr (Or.inr (by simp)))

/-- After `renameInSeq` the old name occurs in no list (given that it was
owned by `seq` and differs from the new name). -/
theorem renameInSeq_no_old {db : Doc} (hnd : KeysNodup db)
    {rev : List (Str × Str)} (hb : build_reverse_cache db = .ok rev)
    {o_n n_n seq : Str} (ho : alookup rev o_n = some seq) (hne : n_n ≠ o_n) :
    ∀ k l, (k, l) ∈ (renameInSeq db o_n n_n seq).map → o_n ∉ l := by
  intro k l hm hmem
  simp only [renameInSeq] at hm
  rcases (mem_setKey_iff hnd).mp hm with ⟨e1, e2⟩ | ⟨hkne, hm2⟩
  · subst e2
    obtain ⟨u, hu, he⟩ := List.mem_map.mp (mem_sortSteps.mp hmem)
    by_cases hcase : u = o_n
    · rw [if_pos hcase] at he
      exact hne he
    · rw [if_neg hcase] at he
      exact hcase he
  · have := build_ok_lookup hb hm2 hmem
    rw [ho] at this
    exact hkne (Option.some.inj this).symm

/-- After `removeStepDoc` the removed step occurs in no list (given that it
was owned by `seq`). -/
theorem removeStepDoc_no_step {db : Doc} (hnd : KeysNodup db)
    {rev : List (Str × Str)} (hb : build_reverse_cache db = .ok rev)
    {n seq : Str} {b : Bool} (hown : alookup rev n = some seq) :
    ∀ k l, (k, l) ∈ (removeStepDoc db n seq b).map → n ∉ l := by
  intro k l hm hmem
  simp only [removeStepDoc] at hm
  by_cases hcond : (decide
      (((alookup db.map seq).getD []).filter (fun t => t ≠ n) = []) && b) = true
  · rw [if_pos hcond] at hm
    obtain ⟨hm2, hkne⟩ := mem_delKey_ne hnd hm
    have := build_ok_lookup hb hm2 hmem
    rw [hown] at this
    exact hkne (Option.some.inj this).symm
  · rw [if_neg hcond] at hm
    rcases (mem_setKey_iff hnd).mp hm with ⟨e1, e2⟩ | ⟨hkne, hm2⟩
    · subst e2
      have := List.mem_filter.mp hmem
      simp at this
    · have := build_ok_lookup hb hm2 hmem
      rw [hown] at this
      exact hkne (Option.some.inj this).symm

/-- Inverting a successful non-interactive `add` run driven by exactly the
two prompted lines: the step was chosen as entered (the conflict loop,
which would block on an empty input list, was not taken). -/
theorem op_add_two_inputs_saved {db : Doc} {a b : Str} {db2 : Doc}
    (h : op_add db [a, b] = .saved db2) :
    ∃ rev s seq, build_reverse_cache db = .ok rev ∧
      normalize_step_name (pyStrip a) = .ok s ∧
      canonicalize_sequence (pyStrip b) = .ok seq ∧
      (alookup rev s = none ∨ alookup rev s = some []) ∧
      db2 = addStepToSeq db s seq := by
  unfold op_add at h
  cases hb : build_reverse_cache db with
  | error e => simp only [hb] at h; exact AddResult.noConfusion h
  | ok rev =>
    simp only [hb] at h
    cases hna : normalize_step_name (pyStrip a) with
    | error e =>
      simp only [promptStep, hna] at h
      cases hnb : normalize_step_name (pyStrip b) with
      | error e2 => simp only [hnb] at h; exact AddResult.noConfusion h
      | ok s2 => simp only [hnb] at h; exact AddResult.noConfusion h
    | ok s =>
      simp only [promptStep, hna] at h
      cases hc : canonicalize_sequence (pyStrip b) with
      | error e => simp only [hc] at h; exact AddResult.noConfusion h
      | ok seq =>
        simp only [hc] at h
        cases he : alookup rev s with
        | none =>
          simp only [he, AddResult.saved.injEq] at h
          exact ⟨rev, s, seq, rfl, rfl, rfl, Or.inl he, h.symm⟩
        | some k =>
          simp only [he] at h
          by_cases hks : k = seq
          · rw [if_pos hks] at h
            exact AddResult.noConfusion h
          · rw [if_neg hks] at h
            by_cases hke : k = []
            · rw [if_pos hke] at h
              simp only [AddResult.saved.injEq] at h
              exact ⟨rev, s, seq, rfl, rfl, rfl, Or.inr (hke ▸ he), h.symm⟩
            · rw [if_neg hke] at h
              simp only [promptFresh] at h
              exact AddResult.noConfusion h

/-- Inverting a successful non-interactive `reassign` run: both arguments
were supplied and resolved without prompting. -/
theorem op_reassign_args_saved {db : Doc} {sa qa : Str} {db2 : Doc}
    (h : op_reassign db (some sa) (some qa) [] = .saved db2) :
    ∃ rev n old nseq, build_reverse_cache db = .ok rev ∧
      normalize_step_name sa = .ok n ∧ alookup rev n = some old ∧
      canonicalize_sequence qa = .ok nseq ∧ old ≠ nseq ∧
      db2 = moveStep db n old nseq := by
  unfold op_reassign at h
  cases hb : build_reverse_cache db with
  | error e => simp only [hb] at h; exact ReassignResult.noConfusion h
  | ok rev =>
    simp only [hb] at h
    by_cases hsa : sa = []
    · simp only [initStep, if_pos hsa, promptStep] at h
      exact ReassignResult.noConfusion h
    · simp only [initStep, if_neg hsa] at h
      cases hn : normalize_step_name sa with
      | error e =>
        simp only [hn, promptStep] at h
        exact ReassignResult.noConfusion h
      | ok n =>
        simp only [hn] at h
        cases hl : alookup rev n with
        | none =>
          simp only [hl, promptStep] at h
          exact ReassignResult.noConfusion h
        | some old =>
          simp only [hl] at h
          unfold reassignCont at h
          by_cases hqa : qa = []
          · simp only [initSeq, if_pos hqa, promptSeq] at h
            exact ReassignResult.noConfusion h
          · simp only [initSeq, if_neg hqa] at h
            cases hcq : canonicalize_sequence qa with
            | error e =>
              simp only [hcq, promptSeq] at h
              exact ReassignResult.noConfusion h
            | ok nseq =>
              simp only [hcq] at h
              by_cases hne : old = nseq
              · rw [if_pos hne] at h
                exact ReassignResult.noConfusion h
              · rw [if_neg hne] at h
                simp only [ReassignResult.saved.injEq] at h
                exact ⟨rev, n, old, nseq, rfl, rfl, hl, rfl, hne, h.symm⟩

/-- Inverting a successful non-interactive `rename` run: both arguments
were supplied and resolved without prompting. -/
theorem op_rename_args_saved {db : Doc} {oa na : Str} {db2 : Doc}
    (h : op_rename db (some oa) (some na) [] = .saved db2) :
    ∃ rev o_n n_n seq, build_reverse_cache db = .ok rev ∧
      normalize_step_name oa = .ok o_n ∧ alookup rev o_n = some seq ∧
      normalize_step_name na = .ok n_n ∧ alookup rev n_n = none ∧
      db2 = renameInSeq db o_n n_n seq := by
  unfold op_rename at h
  cases hb : build_reverse_cache db with
  | error e => simp only [hb] at h; exact RenameResult.noConfusion h
  | ok rev =>
    simp only [hb] at h
    by_cases hoa : oa = []
    · simp only [initStep, if_pos hoa, promptStep] at h
      exact RenameResult.noConfusion h
    · simp only [initStep, if_neg hoa] at h
      cases hn : normalize_step_name oa with
      | error e =>
        simp only [hn, promptStep] at h
        exact RenameResult.noConfusion h
      | ok o_n =>
        simp only [hn] at h
        cases hl : alookup rev o_n with
        | none =>
          simp only [hl, promptStep] at h
          exact RenameResult.noConfusion h
        | some seq =>
          simp only [hl] at h
          unfold renameCont at h
          by_cases hna2 : na = []
          · simp only [initStep, if_pos hna2, promptStep] at h
            exact RenameResult.noConfusion h
          · simp only [initStep, if_neg hna2] at h
            cases hn2 : normalize_step_name na with
            | error e =>
              simp only [hn2, promptStep] at h
              exact RenameResult.noConfusion h
            | ok n_n =>
              simp only [hn2] at h
              by_cases hsome : (alookup rev n_n).isSome
              · rw [if_pos hsome] at h
                simp only [promptStep] at h
                exact RenameResult.noConfusion h
              · rw [if_neg hsome] at h
                simp only [RenameResult.saved.injEq] at h
                exact ⟨rev, o_n, n_n, seq, rfl, rfl, hl, rfl,
                  Option.not_isSome_iff_eq_none.mp hsome, h.symm⟩

/-- **C5** (amended).  Re-running an identical mutating invocation against
its own result reports a no-op or fails, never double-applying a change:
a second `add` of the same step and sequence reports already-present
(provided the document's sequence keys are nonempty — with a degenerate
empty-string key the second run instead fails with `InconsistentStore`,
still writing nothing); a second identical `reassign` reports no change; a
second identical `rename` finds the old name gone and blocks re-prompting;
a second identical `remove` reports not found; a second `gc` finds nothing
to collect.  In every case the second run saves nothing, so the final
document equals the single-run result. -/
theorem c5_idempotent_reruns :
    (∀ db a b db2, KeysNodup db → [] ∉ db.map.map Prod.fst →
      op_add db [a, b] = .saved db2 → op_add db2 [a, b] = .alreadyPresent) ∧
    (∀ db sa qa db2, KeysNodup db →
      op_reassign db (some sa) (some qa) [] = .saved db2 →
      op_reassign db2 (some sa) (some qa) [] = .noChange) ∧
    (∀ db oa na db2, KeysNodup db →
      op_rename db (some oa) (some na) [] = .saved db2 →
      op_rename db2 (some oa) (some na) [] = .blocked) ∧
    (∀ db sa ay inputs db2, KeysNodup db →
      op_remove db sa ay inputs = .saved db2 →
      op_remove db2 sa ay inputs = .notFound) ∧
    (∀ db db2, op_gc db = .saved db2 → op_gc db2 = .noChange) := by
  refine ⟨?_, ?_, ?_, ?_, ?_⟩
  · intro db a b db2 hnd hempty h
    obtain ⟨rev, s, seq, hb, hna, hcb, hcl, hdoc⟩ := op_add_two_inputs_saved h
    have hnone : alookup rev s = none := by
      rcases hcl with h1 | h1
      · exact h1
      · obtain ⟨l, hl, _⟩ := build_ok_mem hb h1
        exact absurd (List.mem_map_of_mem Prod.fst hl) hempty
    have hu2 : UniqueOwners db2 :=
      hdoc ▸ unique_addStepToSeq hnd (build_ok_unique hb)
        (build_ok_none hb hnone)
    obtain ⟨rev2, hb2⟩ := build_ok_of_unique hu2
    obtain ⟨L, hL, hsl⟩ := @addStepToSeq_present db s seq
    have hrev2 : alookup rev2 s = some seq :=
      build_ok_lookup hb2 (hdoc ▸ alookup_mem hL) hsl
    unfold op_add
    simp only [hb2]
    simp only [promptStep, hna]
    simp only [hcb]
    simp only [hrev2]
    rw [if_pos trivial]
  · intro db sa qa db2 hnd h
    obtain ⟨rev, n, old, nseq, hb, hn, hl, hcq, hne, hdoc⟩ :=
      op_reassign_args_saved h
    have hu2 : UniqueOwners db2 := hdoc ▸ unique_moveStep hnd hb hl
    obtain ⟨rev2, hb2⟩ := build_ok_of_unique hu2
    obtain ⟨L, hL, hnl⟩ := @moveStep_present db n old nseq
    have hrev2 : alookup rev2 n = some nseq :=
      build_ok_lookup hb2 (hdoc ▸ alookup_mem hL) hnl
    have hsa : sa ≠ [] := by
      intro e
      rw [e, show normalize_step_name [] = .error .emptyStep from rfl] at hn
      exact Except.noConfusion hn
    have hqa : qa ≠ [] := by
      intro e
      rw [e, show canonicalize_sequence [] = .error .emptySeq from rfl] at hcq
      exact Except.noConfusion hcq
    unfold op_reassign
    simp only [hb2]
    simp only [initStep, if_neg hsa, hn]
    simp only [hrev2]
    unfold reassignCont
    simp only [initSeq, if_neg hqa, hcq]
    rw [if_pos trivial]
  · intro db oa na db2 hnd h
    obtain ⟨rev, o_n, n_n, seq, hb, hno, hlo, hnn, hln, hdoc⟩ :=
      op_rename_args_saved h
    have hne : n_n ≠ o_n := by
      intro e
      rw [e, hlo] at hln
      exact Option.noConfusion hln
    have hu2 : UniqueOwners db2 := hdoc ▸ unique_renameInSeq hnd hb hln
    obtain ⟨rev2, hb2⟩ := build_ok_of_unique hu2
    have habs : ∀ k l, (k, l) ∈ db2.map → o_n ∉ l := by
      rw [hdoc]
      exact renameInSeq_no_old hnd hb hlo hne
    have hrev2 : alookup rev2 o_n = none := alookup_none_of_absent hb2 habs
    have hoa : oa ≠ [] := by
      intro e
      rw [e, show normalize_step_name [] = .error .emptyStep from rfl] at hno
      exact Except.noConfusion hno
    unfold op_rename
    simp only [hb2]
    simp only [initStep, if_neg hoa, hno]
    simp only [hrev2]
    simp only [promptStep]
  · intro db sa ay inputs db2 hnd h
    obtain ⟨rev, n, seq, b2, hb, hns, hl, hseqne, hdoc⟩ := op_remove_saved_inv h
    have hu2 : UniqueOwners db2 :=
      hdoc ▸ unique_removeStepDoc hnd (build_ok_unique hb)
    obtain ⟨rev2, hb2⟩ := build_ok_of_unique hu2
    have habs : ∀ k l, (k, l) ∈ db2.map → n ∉ l := by
      rw [hdoc]
      exact removeStepDoc_no_step hnd hb hl
    have hrev2 : alookup rev2 n = none := alookup_none_of_absent hb2 habs
    unfold op_remove
    simp only [hb2, hns, hrev2]
  · intro db db2 h
    have hdoc := op_gc_saved_inv h
    unfold op_gc
    have hself : db2.map.filter (fun p => p.2 ≠ []) = db2.map := by
      rw [hdoc]
      exact List.filter_eq_self.mpr (fun a ha => (List.mem_filter.mp ha).2)
    rw [if_pos (by rw [hself])]

/-- **C5** (counterexample to the claim as stated).  On `{"": ["x"]}` the
first `add x UP` saves; the identical second run does not report
already-present: it fails with `InconsistentStore` (the first run put `x`
under a second key).  The final document is nevertheless the single-run
result. -/
theorem c5_counterexample :
    op_add ⟨1, [([], ["x".toList])]⟩ ["x".toList, "UP".toList] =
      .saved ⟨1, [([], ["x".toList]), ("UP".toList, ["x".toList])]⟩ ∧
    op_add ⟨1, [([], ["x".toList]), ("UP".toList, ["x".toList])]⟩
        ["x".toList, "UP".toList] =
      .inconsistent (.inconsistent "x".toList [] "UP".toList) :=
  ⟨by decide, by decide⟩

/-- **C5** (witness).  Adding `open menu` under `DOWN, DOWN` to the result
of the same add reports already-present and changes nothing. -/
theorem c5_witness :
    op_add ⟨1, [("DOWN,DOWN".toList, ["open menu".toList])]⟩
      ["open menu".toList, "DOWN, DOWN".toList] = .alreadyPresent :=
  c5_idempotent_reruns.1 ⟨1, []⟩ "open menu".toList "DOWN, DOWN".toList
    ⟨1, [("DOWN,DOWN".toList, ["open menu".toList])]⟩
    (by decide) (by decide) (by decide)

/-! ## Claim C9: helper lemmas -/

/-- The `seen` dictionary after scanning one list: every step of the list
now maps to this list's key, everything else is untouched. -/
theorem lintList_seen (seq : Str) (steps : List Str)
    (seen : List (Str × Str)) (t : Str) :
    alookup (lintList seq steps seen).2.2 t =
      if t ∈ steps then some seq else alookup seen t := by
  induction steps generalizing seen with
  | nil => simp [lintList]
  | cons s0 ss ih =>
    show alookup (lintList seq ss (setKey seen s0 seq)).2.2 t = _
    rw [ih]
    by_cases h1 : t ∈ ss
    · rw [if_pos h1, if_pos (List.mem_cons_of_mem _ h1)]
    · rw [if_neg h1]
      by_cases h2 : t = s0
      · subst h2
        rw [alookup_setKey_self, if_pos (List.mem_cons_self _ _)]
      · rw [alookup_setKey_ne _ _ h2,
          if_neg (by simp [h1, h2])]

/-- Membership in a name report. -/
theorem mem_lintNameRep {s : Str} {it : LintItem} :
    it ∈ (lintNameRep s).1 ↔
      ∃ e, it = LintItem.badStep s e ∧ normalize_step_name s = .error e := by
  unfold lintNameRep
  cases hn : normalize_step_name s with
  | ok v =>
    simp only [List.not_mem_nil, false_iff]
    rintro ⟨e, _, he⟩
    exact Except.noConfusion he
  | error e0 =>
    simp only [List.mem_singleton]
    constructor
    · intro h; exact ⟨e0, h, rfl⟩
    · rintro ⟨e, rfl, he⟩
      rw [Except.error.inj he]

/-- The name flag is true exactly when the name report is empty. -/
theorem lintNameRep_ok {s : Str} :
    (lintNameRep s).2 = true ↔ (lintNameRep s).1 = [] := by
  unfold lintNameRep
  cases normalize_step_name s <;> simp

/-- Membership in a duplicate report. -/
theorem mem_lintDupRep {seq s0 : Str} {seen : List (Str × Str)}
    {it : LintItem} :
    it ∈ (lintDupRep seq s0 seen).1 ↔
      ∃ k, it = LintItem.dupStep s0 k seq ∧ alookup seen s0 = some k ∧
        k ≠ seq := by
  unfold lintDupRep
  cases hl : alookup seen s0 with
  | none =>
    simp only [List.not_mem_nil, false_iff]
    rintro ⟨k, _, hk, _⟩
    exact Option.noConfusion hk
  | some k0 =>
    show it ∈ (if k0 = seq then (([] : List LintItem), true)
        else ([LintItem.dupStep s0 k0 seq], false)).1 ↔ _
    by_cases hk : k0 = seq
    · rw [if_pos hk]
      simp only [List.not_mem_nil, false_iff]
      rintro ⟨k, _, hk2, hne⟩
      exact hne ((Option.some.inj hk2) ▸ hk)
    · rw [if_neg hk]
      simp only [List.mem_singleton]
      constructor
      · intro h; exact ⟨k0, h, rfl, hk⟩
      · rintro ⟨k, rfl, hk2, hne⟩
        rw [Option.some.inj hk2]

/-- The duplicate flag is true exactly when the duplicate report is
empty. -/
theorem lintDupRep_ok {seq s0 : Str} {seen : List (Str × Str)} :
    (lintDupRep seq s0 seen).2 = true ↔ (lintDupRep seq s0 seen).1 = [] := by
  unfold lintDupRep
  cases alookup seen s0 with
  | none => simp
  | some k0 =>
    show ((if k0 = seq then (([] : List LintItem), true)
        else ([LintItem.dupStep s0 k0 seq], false)).2 = true) ↔
      ((if k0 = seq then (([] : List LintItem), true)
        else ([LintItem.dupStep s0 k0 seq], false)).1 = [])
    by_cases hk : k0 = seq
    · rw [if_pos hk]; simp
    · rw [if_neg hk]; simp

/-- A `badStep` report from one list's scan identifies a step of that list
with exactly that normalization error, and conversely. -/
theorem lintList_badStep (seq : Str) (steps : List Str)
    (seen : List (Str × Str)) (s : Str) (e : Err) :
    LintItem.badStep s e ∈ (lintList seq steps seen).1 ↔
      s ∈ steps ∧ normalize_step_name s = .error e := by
  induction steps generalizing seen with
  | nil => simp [lintList]
  | cons s0 ss ih =>
    simp only [lintList, List.mem_append]
    constructor
    · rintro ((h | h) | h)
      · obtain ⟨e2, heq, he⟩ := mem_lintNameRep.mp h
        injection heq with e1 e2eq
        subst e1; subst e2eq
        exact ⟨List.mem_cons_self _ _, he⟩
      · obtain ⟨k, heq, _, _⟩ := mem_lintDupRep.mp h
        exact absurd heq (by simp)
      · obtain ⟨hmem, hn⟩ := (ih (setKey seen s0 seq)).mp h
        exact ⟨List.mem_cons_of_mem _ hmem, hn⟩
    · rintro ⟨hmem, hn⟩
      rcases List.mem_cons.mp hmem with rfl | hmem2
      · exact Or.inl (Or.inl (mem_lintNameRep.mpr ⟨e, rfl, hn⟩))
      · exact Or.inr ((ih (setKey seen s0 seq)).mpr ⟨hmem2, hn⟩)

/-- The inner flag is true exactly when the inner report is empty. -/
theorem lintList_ok_iff (seq : Str) :
    ∀ (steps : List Str) (seen : List (Str × Str)),
      (lintList seq steps seen).2.1 = true ↔ (lintList seq steps seen).1 = [] := by
  intro steps
  induction steps with
  | nil => intro seen; simp [lintList]
  | cons s0 ss ih =>
    intro seen
    simp only [lintList, Bool.and_eq_true, List.append_eq_nil]
    rw [lintNameRep_ok, lintDupRep_ok, ih (setKey seen s0 seq)]

/-- The phase-1 flag is true exactly when the phase-1 report is empty. -/
theorem lintPhase1_ok_iff :
    ∀ (pairs : List (Str × List Str)) (seen : List (Str × Str)),
      (lintPhase1 pairs seen).2.1 = true ↔ (lintPhase1 pairs seen).1 = [] := by
  intro pairs
  induction pairs with
  | nil => intro seen; simp [lintPhase1]
  | cons p rest ih =>
    intro seen
    obtain ⟨seq, steps⟩ := p
    simp only [lintPhase1, Bool.and_eq_true, List.append_eq_nil]
    rw [lintList_ok_iff, ih]

/-- A phase-1 `badStep` report identifies a step of some list with that
normalization error, and conversely. -/
theorem lintPhase1_badStep (s : Str) (e : Err) :
    ∀ (pairs : List (Str × List Str)) (seen : List (Str × Str)),
      LintItem.badStep s e ∈ (lintPhase1 pairs seen).1 ↔
        ∃ k l, (k, l) ∈ pairs ∧ s ∈ l ∧ normalize_step_name s = .error e := by
  intro pairs
  induction pairs with
  | nil => intro seen; simp [lintPhase1]
  | cons p rest ih =>
    intro seen
    obtain ⟨seq, steps⟩ := p
    simp only [lintPhase1, List.mem_append]
    rw [lintList_badStep, ih]
    constructor
    · rintro (⟨hmem, hn⟩ | ⟨k, l, hm, hmem, hn⟩)
      · exact ⟨seq, steps, List.mem_cons_self _ _, hmem, hn⟩
      · exact ⟨k, l, List.mem_cons_of_mem _ hm, hmem, hn⟩
    · rintro ⟨k, l, hm, hmem, hn⟩
      rcases List.mem_cons.mp hm with heq | hm2
      · refine Or.inl ⟨?_, hn⟩
        have b1 : l = steps := congrArg Prod.snd heq
        exact b1 ▸ hmem
      · exact Or.inr ⟨k, l, hm2, hmem, hn⟩

/-- Every phase-1 report is a `badStep` or a `dupStep`. -/
theorem lintList_shape (seq : Str) :
    ∀ (steps : List Str) (seen : List (Str × Str)),
      ∀ it ∈ (lintList seq steps seen).1,
        (∃ s e, it = LintItem.badStep s e) ∨
        ∃ s k1 k2, it = LintItem.dupStep s k1 k2 := by
  intro steps
  induction steps with
  | nil => intro seen it h; simp [lintList] at h
  | cons s0 ss ih =>
    intro seen it h
    simp only [lintList, List.mem_append] at h
    rcases h with (h | h) | h
    · obtain ⟨e, heq, _⟩ := mem_lintNameRep.mp h
      exact Or.inl ⟨s0, e, heq⟩
    · obtain ⟨k, heq, _, _⟩ := mem_lintDupRep.mp h
      exact Or.inr ⟨s0, k, seq, heq⟩
    · exact ih (setKey seen s0 seq) it h

theorem lintPhase1_shape :
    ∀ (pairs : List (Str × List Str)) (seen : List (Str × Str)),
      ∀ it ∈ (lintPhase1 pairs seen).1,
        (∃ s e, it = LintItem.badStep s e) ∨
        ∃ s k1 k2, it = LintItem.dupStep s k1 k2 := by
  intro pairs
  induction pairs with
  | nil => intro seen it h; simp [lintPhase1] at h
  | cons p rest ih =>
    intro seen it h
    obtain ⟨seq, steps⟩ := p
    simp only [lintPhase1, List.mem_append] at h
    rcases h with h | h
    · exact lintList_shape seq steps seen it h
    · exact ih _ it h

/-- If `s` is owned by `k ≠ seq` in `seen`, scanning a list containing `s`
emits a duplicate report. -/
theorem lintList_dup_hit {seq s k : Str} (hne : k ≠ seq) :
    ∀ (steps : List Str) (seen : List (Str × Str)), s ∈ steps →
      alookup seen s = some k →
      ∃ ka, LintItem.dupStep s ka seq ∈ (lintList seq steps seen).1 := by
  intro steps
  induction steps with
  | nil => intro seen hs; simp at hs
  | cons s0 ss ih =>
    intro seen hs hk
    simp only [lintList, List.mem_append]
    by_cases h0 : s0 = s
    · subst h0
      exact ⟨k, Or.inl (Or.inr (mem_lintDupRep.mpr ⟨k, rfl, hk, hne⟩))⟩
    · rcases List.mem_cons.mp hs with he | hm
      · exact absurd he.symm h0
      · obtain ⟨ka, hmem⟩ := ih (setKey seen s0 seq) hm
          (by rw [alookup_setKey_ne _ _ (fun e => h0 e.symm)]; exact hk)
        exact ⟨ka, Or.inr hmem⟩

/-- Completeness of duplicate detection over the whole phase-1 scan. -/
theorem lintPhase1_dup_complete {s : Str} :
    ∀ (pairs : List (Str × List Str)) (seen : List (Str × Str)),
      ((∃ k1 l1 k2 l2, (k1, l1) ∈ pairs ∧ (k2, l2) ∈ pairs ∧
          s ∈ l1 ∧ s ∈ l2 ∧ k1 ≠ k2) ∨
       (∃ k k2 l2, alookup seen s = some k ∧ (k2, l2) ∈ pairs ∧
          s ∈ l2 ∧ k2 ≠ k)) →
      ∃ ka kb, LintItem.dupStep s ka kb ∈ (lintPhase1 pairs seen).1 := by
  intro pairs
  induction pairs with
  | nil =>
    intro seen h
    rcases h with ⟨k1, l1, k2, l2, h1, _⟩ | ⟨k, k2, l2, _, h2, _⟩
    · simp at h1
    · simp at h2
  | cons p rest ih =>
    intro seen h
    obtain ⟨seq, steps⟩ := p
    simp only [lintPhase1, List.mem_append]
    have hseen1 := lintList_seen seq steps seen
    rcases h with ⟨k1, l1, k2, l2, h1, h2, hs1, hs2, hne⟩ |
      ⟨k, k2, l2, hk, h2, hs2, hne⟩
    · rcases List.mem_cons.mp h1 with he1 | hm1 <;>
        rcases List.mem_cons.mp h2 with he2 | hm2
      · have a1 : k1 = seq := congrArg Prod.fst he1
        have a2 : k2 = seq := congrArg Prod.fst he2
        exact absurd (a1.trans a2.symm) hne
      · have a1 : k1 = seq := congrArg Prod.fst he1
        have b1 : l1 = steps := congrArg Prod.snd he1
        have hst : s ∈ steps := b1 ▸ hs1
        obtain ⟨ka, kb, hm⟩ := ih (lintList seq steps seen).2.2
          (Or.inr ⟨seq, k2, l2, by rw [hseen1, if_pos hst], hm2, hs2,
            fun e => hne ((a1.trans e.symm))⟩)
        exact ⟨ka, kb, Or.inr hm⟩
      · have a2 : k2 = seq := congrArg Prod.fst he2
        have b2 : l2 = steps := congrArg Prod.snd he2
        have hst : s ∈ steps := b2 ▸ hs2
        obtain ⟨ka, kb, hm⟩ := ih (lintList seq steps seen).2.2
          (Or.inr ⟨seq, k1, l1, by rw [hseen1, if_pos hst], hm1, hs1,
            fun e => hne (e.trans a2.symm)⟩)
        exact ⟨ka, kb, Or.inr hm⟩
      · obtain ⟨ka, kb, hm⟩ := ih (lintList seq steps seen).2.2
          (Or.inl ⟨k1, l1, k2, l2, hm1, hm2, hs1, hs2, hne⟩)
        exact ⟨ka, kb, Or.inr hm⟩
    · rcases List.mem_cons.mp h2 with he2 | hm2
      · have a2 : k2 = seq := congrArg Prod.fst he2
        have b2 : l2 = steps := congrArg Prod.snd he2
        have hst : s ∈ steps := b2 ▸ hs2
        obtain ⟨ka, hm⟩ := lintList_dup_hit
          (fun e => hne (a2.trans e.symm)) steps seen hst hk
        exact ⟨ka, seq, Or.inl hm⟩
      · by_cases hst : s ∈ steps
        · by_cases hk2seq : k2 = seq
          · obtain ⟨ka, hm⟩ := lintList_dup_hit
              (fun e => hne (hk2seq.trans e.symm)) steps seen hst hk
            exact ⟨ka, seq, Or.inl hm⟩
          · obtain ⟨ka, kb, hm⟩ := ih (lintList seq steps seen).2.2
              (Or.inr ⟨seq, k2, l2, by rw [hseen1, if_pos hst], hm2, hs2,
                hk2seq⟩)
            exact ⟨ka, kb, Or.inr hm⟩
        · obtain ⟨ka, kb, hm⟩ := ih (lintList seq steps seen).2.2
            (Or.inr ⟨k, k2, l2, by rw [hseen1, if_neg hst]; exact hk, hm2,
              hs2, hne⟩)
          exact ⟨ka, kb, Or.inr hm⟩

/-- Soundness of duplicate reports from one list's scan. -/
theorem lintList_dup_sound {M : List (Str × List Str)} {seq : Str} :
    ∀ (steps : List Str) (seen : List (Str × Str)),
      (∀ t k, alookup seen t = some k → ∃ l, (k, l) ∈ M ∧ t ∈ l) →
      (∀ t ∈ steps, ∃ l, (seq, l) ∈ M ∧ t ∈ l) →
      ∀ {s ka kb}, LintItem.dupStep s ka kb ∈ (lintList seq steps seen).1 →
        ka ≠ kb ∧ (∃ l, (ka, l) ∈ M ∧ s ∈ l) ∧ (∃ l, (kb, l) ∈ M ∧ s ∈ l) := by
  intro steps
  induction steps with
  | nil => intro seen _ _ s ka kb h; simp [lintList] at h
  | cons s0 ss ih =>
    intro seen hseen hsteps s ka kb h
    simp only [lintList, List.mem_append] at h
    rcases h with (h | h) | h
    · obtain ⟨e, heq, _⟩ := mem_lintNameRep.mp h
      exact absurd heq (by simp)
    · obtain ⟨k0, heq, hk0, hne0⟩ := mem_lintDupRep.mp h
      injection heq with e1 e2 e3
      refine ⟨?_, ?_, ?_⟩
      · rw [e2, e3]; exact hne0
      · rw [e2, e1]; exact hseen s0 k0 hk0
      · rw [e3, e1]; exact hsteps s0 (List.mem_cons_self _ _)
    · refine ih (setKey seen s0 seq) ?_
        (fun t ht => hsteps t (List.mem_cons_of_mem _ ht)) h
      intro t k2 hk2
      by_cases ht : t = s0
      · subst ht
        rw [alookup_setKey_self] at hk2
        exact (Option.some.inj hk2) ▸ hsteps t (List.mem_cons_self _ _)
      · rw [alookup_setKey_ne _ _ ht] at hk2
        exact hseen t k2 hk2

/-- Soundness of duplicate reports over the whole phase-1 scan. -/
theorem lintPhase1_dup_sound {M : List (Str × List Str)} :
    ∀ (pairs : List (Str × List Str)) (seen : List (Str × Str)),
      (∀ t k, alookup seen t = some k → ∃ l, (k, l) ∈ M ∧ t ∈ l) →
      (∀ q ∈ pairs, q ∈ M) →
      ∀ {s ka kb}, LintItem.dupStep s ka kb ∈ (lintPhase1 pairs seen).1 →
        ka ≠ kb ∧ (∃ l, (ka, l) ∈ M ∧ s ∈ l) ∧ (∃ l, (kb, l) ∈ M ∧ s ∈ l) := by
  intro pairs
  induction pairs with
  | nil => intro seen _ _ s ka kb h; simp [lintPhase1] at h
  | cons p rest ih =>
    intro seen hseen hsub s ka kb h
    obtain ⟨seq, steps⟩ := p
    simp only [lintPhase1, List.mem_append] at h
    have hsteps : ∀ t ∈ steps, ∃ l, (seq, l) ∈ M ∧ t ∈ l :=
      fun t ht => ⟨steps, hsub (seq, steps) (List.mem_cons_self _ _), ht⟩
    rcases h with h | h
    · exact lintList_dup_sound steps seen hseen hsteps h
    · refine ih (lintList seq steps seen).2.2 ?_
        (fun q hq => hsub q (List.mem_cons_of_mem _ hq)) h
      intro t k2 hk2
      rw [lintList_seen] at hk2
      by_cases ht : t ∈ steps
      · rw [if_pos ht] at hk2
        exact (Option.some.inj hk2) ▸ hsteps t ht
      · rw [if_neg ht] at hk2
        exact hseen t k2 hk2

/-- A phase-2 `badSeq` report identifies a present key that fails
canonicalization, and conversely. -/
theorem lintPhase2_badSeq (k : Str) (e : Err) :
    ∀ m : List (Str × List Str),
      LintItem.badSeq k e ∈ (lintPhase2 m).1 ↔
        (∃ l, (k, l) ∈ m) ∧ canonicalize_sequence k = .error e := by
  intro m
  induction m with
  | nil => simp [lintPhase2]
  | cons p rest ih =>
    obtain ⟨k0, l0⟩ := p
    cases hc : canonicalize_sequence k0 with
    | ok v =>
      simp only [lintPhase2, hc]
      rw [ih]
      constructor
      · rintro ⟨⟨l, hm⟩, hcan⟩
        exact ⟨⟨l, List.mem_cons_of_mem _ hm⟩, hcan⟩
      · rintro ⟨⟨l, hm⟩, hcan⟩
        rcases List.mem_cons.mp hm with heq | hm2
        · have a1 : k = k0 := congrArg Prod.fst heq
          rw [a1, hc] at hcan
          exact Except.noConfusion hcan
        · exact ⟨⟨l, hm2⟩, hcan⟩
    | error e0 =>
      simp only [lintPhase2, hc, List.mem_cons]
      rw [ih]
      constructor
      · rintro (heq | ⟨⟨l, hm⟩, hcan⟩)
        · injection heq with a1 a2
          refine ⟨⟨l0, ?_⟩, ?_⟩
          · rw [a1]; exact Or.inl rfl
          · rw [a1, hc, a2]
        · exact ⟨⟨l, Or.inr hm⟩, hcan⟩
      · rintro ⟨⟨l, hm⟩, hcan⟩
        rcases hm with heq | hm2
        · have a1 : k = k0 := congrArg Prod.fst heq
          rw [a1, hc] at hcan
          have a2 : e0 = e := Except.error.inj hcan
          exact Or.inl (by rw [a1, a2])
        · exact Or.inr ⟨⟨l, hm2⟩, hcan⟩

/-- The phase-2 flag is true exactly when the phase-2 report is empty. -/
theorem lintPhase2_ok_iff :
    ∀ m : List (Str × List Str),
      (lintPhase2 m).2 = true ↔ (lintPhase2 m).1 = [] := by
  intro m
  induction m with
  | nil => simp [lintPhase2]
  | cons p rest ih =>
    obtain ⟨k0, l0⟩ := p
    cases hc : canonicalize_sequence k0 with
    | ok v => simp only [lintPhase2, hc]; exact ih
    | error e0 => simp [lintPhase2, hc]

/-- Every phase-2 report is a `badSeq`. -/
theorem lintPhase2_shape :
    ∀ m : List (Str × List Str), ∀ it ∈ (lintPhase2 m).1,
      ∃ k e, it = LintItem.badSeq k e := by
  intro m
  induction m with
  | nil => intro it h; simp [lintPhase2] at h
  | cons p rest ih =>
    intro it h
    obtain ⟨k0, l0⟩ := p
    cases hc : canonicalize_sequence k0 with
    | ok v =>
      simp only [lintPhase2, hc] at h
      exact ih it h
    | error e0 =>
      simp only [lintPhase2, hc, List.mem_cons] at h
      rcases h with heq | h2
      · exact ⟨k0, e0, heq⟩
      · exact ih it h2

/-- A phase-3 warning identifies an empty entry, and conversely. -/
theorem lintPhase3_mem (k : Str) :
    ∀ m : List (Str × List Str),
      LintItem.warnEmpty k ∈ lintPhase3 m ↔ (k, ([] : List Str)) ∈ m := by
  intro m
  induction m with
  | nil => simp [lintPhase3]
  | cons p rest ih =>
    obtain ⟨k0, l0⟩ := p
    by_cases hl : l0 = []
    · simp only [lintPhase3, if_pos hl, List.cons_append, List.nil_append,
        List.mem_cons]
      rw [ih]
      constructor
      · rintro (heq | h2)
        · injection heq with a1
          rw [a1, hl]
          exact Or.inl rfl
        · exact Or.inr h2
      · intro hm
        rcases hm with heq | hm2
        · have a1 : k = k0 := congrArg Prod.fst heq
          exact Or.inl (by rw [a1])
        · exact Or.inr hm2
    · simp only [lintPhase3, if_neg hl, List.nil_append]
      rw [ih]
      constructor
      · exact fun h2 => List.mem_cons_of_mem _ h2
      · intro hm
        rcases List.mem_cons.mp hm with heq | hm2
        · exact absurd (congrArg Prod.snd heq).symm hl
        · exact hm2

/-- **C9.** `op_lint` scans the whole document without aborting on the first
problem: every malformed step name, every step owned by two different
sequence keys, every malformed sequence key and every empty sequence appears
in the report (the last as a warning), and the failure status (`sys.exit(1)`)
is reached if and only if at least one error-class issue exists — a document
whose only issues are empty sequences does not fail lint.  `op_lint` returns
only the report and the status, never a document, and never calls
`atomic_save`: lint does not modify the store. -/
theorem c9_lint_collects_and_fails_iff (db : Doc) :
    (∀ k l s e, (k, l) ∈ db.map → s ∈ l → normalize_step_name s = .error e →
      LintItem.badStep s e ∈ (op_lint db).1) ∧
    (∀ s k1 l1 k2 l2, (k1, l1) ∈ db.map → (k2, l2) ∈ db.map →
      s ∈ l1 → s ∈ l2 → k1 ≠ k2 →
      ∃ ka kb, LintItem.dupStep s ka kb ∈ (op_lint db).1) ∧
    (∀ k l e, (k, l) ∈ db.map → canonicalize_sequence k = .error e →
      LintItem.badSeq k e ∈ (op_lint db).1) ∧
    (∀ k, (k, ([] : List Str)) ∈ db.map →
      LintItem.warnEmpty k ∈ (op_lint db).1) ∧
    ((op_lint db).2 = true ↔
      (∃ k l s e, (k, l) ∈ db.map ∧ s ∈ l ∧
        normalize_step_name s = .error e) ∨
      (∃ s k1 l1 k2 l2, (k1, l1) ∈ db.map ∧ (k2, l2) ∈ db.map ∧
        s ∈ l1 ∧ s ∈ l2 ∧ k1 ≠ k2) ∨
      (∃ k l e, (k, l) ∈ db.map ∧ canonicalize_sequence k = .error e)) := by
  refine ⟨?_, ?_, ?_, ?_, ?_⟩
  · intro k l s e hkl hs hn
    have h1 : LintItem.badStep s e ∈ (lintPhase1 db.map []).1 :=
      (lintPhase1_badStep s e db.map []).mpr ⟨k, l, hkl, hs, hn⟩
    simp only [op_lint]
    exact List.mem_append_left _ (List.mem_append_left _ h1)
  · intro s k1 l1 k2 l2 h1 h2 hs1 hs2 hne
    obtain ⟨ka, kb, hd⟩ := lintPhase1_dup_complete db.map []
      (Or.inl ⟨k1, l1, k2, l2, h1, h2, hs1, hs2, hne⟩)
    refine ⟨ka, kb, ?_⟩
    simp only [op_lint]
    exact List.mem_append_left _ (List.mem_append_left _ hd)
  · intro k l e hkl hc
    have h2 : LintItem.badSeq k e ∈ (lintPhase2 db.map).1 :=
      (lintPhase2_badSeq k e db.map).mpr ⟨⟨l, hkl⟩, hc⟩
    simp only [op_lint]
    exact List.mem_append_left _ (List.mem_append_right _ h2)
  · intro k hk
    have h3 : LintItem.warnEmpty k ∈ lintPhase3 db.map :=
      (lintPhase3_mem k db.map).mpr hk
    simp only [op_lint]
    exact List.mem_append_right _ h3
  · constructor
    · intro hf
      have hand : ((lintPhase1 db.map []).2.1 && (lintPhase2 db.map).2)
          = false := by
        have hf' : (!((lintPhase1 db.map []).2.1 && (lintPhase2 db.map).2))
            = true := hf
        cases hb : ((lintPhase1 db.map []).2.1 && (lintPhase2 db.map).2)
        · rfl
        · rw [hb] at hf'; exact Bool.noConfusion hf'
      have hf' : (lintPhase1 db.map []).2.1 = false ∨
          (lintPhase2 db.map).2 = false := by
        cases hb1 : (lintPhase1 db.map []).2.1
        · exact Or.inl rfl
        · cases hb2 : (lintPhase2 db.map).2
          · exact Or.inr rfl
          · rw [hb1, hb2] at hand; exact Bool.noConfusion hand
      rcases hf' with h1 | h2
      · have hne : (lintPhase1 db.map []).1 ≠ [] := by
          intro hnil
          have hok := (lintPhase1_ok_iff db.map []).mpr hnil
          rw [hok] at h1
          exact Bool.noConfusion h1
        obtain ⟨it, hit⟩ := List.exists_mem_of_ne_nil _ hne
        rcases lintPhase1_shape db.map [] it hit with ⟨s, e, rfl⟩ |
          ⟨s, ka, kb, rfl⟩
        · obtain ⟨k, l, hkl, hs, hn⟩ :=
            (lintPhase1_badStep s e db.map []).mp hit
          exact Or.inl ⟨k, l, s, e, hkl, hs, hn⟩
        · have hsound := @lintPhase1_dup_sound db.map db.map []
            (fun t k h => Option.noConfusion h) (fun q hq => hq)
            s ka kb hit
          obtain ⟨hkk, ⟨la, hla, hsa⟩, ⟨lb, hlb, hsb⟩⟩ := hsound
          exact Or.inr (Or.inl ⟨s, ka, la, kb, lb, hla, hlb, hsa, hsb, hkk⟩)
      · have hne : (lintPhase2 db.map).1 ≠ [] := by
          intro hnil
          have hok := (lintPhase2_ok_iff db.map).mpr hnil
          rw [hok] at h2
          exact Bool.noConfusion h2
        obtain ⟨it, hit⟩ := List.exists_mem_of_ne_nil _ hne
        obtain ⟨k, e, rfl⟩ := lintPhase2_shape db.map it hit
        obtain ⟨⟨l, hkl⟩, hc⟩ := (lintPhase2_badSeq k e db.map).mp hit
        exact Or.inr (Or.inr ⟨k, l, e, hkl, hc⟩)
    · intro hiss
      have hor : (lintPhase1 db.map []).1 ≠ [] ∨
          (lintPhase2 db.map).1 ≠ [] := by
        rcases hiss with ⟨k, l, s, e, hkl, hs, hn⟩ |
          ⟨s, k1, l1, k2, l2, h1, h2, hs1, hs2, hnn⟩ | ⟨k, l, e, hkl, hc⟩
        · exact Or.inl (List.ne_nil_of_mem
            ((lintPhase1_badStep s e db.map []).mpr ⟨k, l, hkl, hs, hn⟩))
        · obtain ⟨ka, kb, hd⟩ := lintPhase1_dup_complete db.map []
            (Or.inl ⟨k1, l1, k2, l2, h1, h2, hs1, hs2, hnn⟩)
          exact Or.inl (List.ne_nil_of_mem hd)
        · exact Or.inr (List.ne_nil_of_mem
            ((lintPhase2_badSeq k e db.map).mpr ⟨⟨l, hkl⟩, hc⟩))
      show (!((lintPhase1 db.map []).2.1 && (lintPhase2 db.map).2)) = true
      rcases hor with hne | hne
      · have h1 : (lintPhase1 db.map []).2.1 = false := by
          cases hb : (lintPhase1 db.map []).2.1
          · rfl
          · exact absurd ((lintPhase1_ok_iff db.map []).mp hb) hne
        rw [h1]
        rfl
      · have h2 : (lintPhase2 db.map).2 = false := by
          cases hb : (lintPhase2 db.map).2
          · rfl
          · exact absurd ((lintPhase2_ok_iff db.map).mp hb) hne
        rw [h2, Bool.and_false]
        rfl

/-- Witness for C9: on a store owning step `x` under both `UP` and `DN`
the lint run exits with failure status, obtained from the failure
characterization at the duplicate-ownership disjunct. -/
theorem c9_witness :
    (op_lint ⟨1, [(['U','P'], [['x']]), (['D','N'], [['x']])]⟩).2 = true :=
  (c9_lint_collects_and_fails_iff
      ⟨1, [(['U','P'], [['x']]), (['D','N'], [['x']])]⟩).2.2.2.2.mpr
    (Or.inr (Or.inl ⟨['x'], ['U','P'], [['x']], ['D','N'], [['x']],
      by decide, by decide, by decide, by decide, by decide⟩))

end StepSeq















